import Mathlib

/-!
# Verification of the `sounding-bufkit` parsing / merge pipeline

A shallow embedding of the parsing, validation and time-synchronized merge
code of the `sounding-bufkit` repository, together with theorems settling the
frozen claims about it.

Modelling conventions:

* Rust `&str` slices are modelled as `List Char`; byte offsets are modelled as
  character offsets (the two coincide on the ASCII data the format carries).
* Rust `f64` scalars are modelled as `ℚ`.  The code under scrutiny only moves
  decoded numbers around and compares them with the exact sentinel `-9999.0`,
  which is exactly representable, so rationals model all values the decimal
  parsers can produce.
* `char::is_whitespace` (Unicode `White_Space`) is modelled in full;
  `char::is_numeric` and `char::is_alphanumeric` are modelled by their ASCII
  fragments (the format is ASCII).
* Fallible Rust functions returning `Result` are modelled with `Option` /
  `Except Unit`; where a function can also panic, a dedicated result type with
  an explicit `panic` outcome is used.

The file is organised as definitions first (one section per source module),
then the theorems.
-/

namespace Bufkit

/-! ## Character classes and basic string utilities -/

/-- `char::is_whitespace` (Unicode `White_Space` property), as used by
`str::trim`, `split_whitespace` and the scanners in `parse_util.rs`. -/
def isWs (c : Char) : Bool :=
  c.toNat == 0x20 || (decide (0x9 ≤ c.toNat) && decide (c.toNat ≤ 0xD)) ||
  c.toNat == 0x85 || c.toNat == 0xA0 || c.toNat == 0x1680 ||
  (decide (0x2000 ≤ c.toNat) && decide (c.toNat ≤ 0x200A)) ||
  c.toNat == 0x2028 || c.toNat == 0x2029 || c.toNat == 0x202F ||
  c.toNat == 0x205F || c.toNat == 0x3000

/-- ASCII fragment of Rust `char::is_numeric` (and exactly `char::is_digit(10)`). -/
def isDigitC (c : Char) : Bool :=
  decide (0x30 ≤ c.toNat) && decide (c.toNat ≤ 0x39)

/-- ASCII fragment of Rust `char::is_alphanumeric`. -/
def isAlnum (c : Char) : Bool :=
  isDigitC c || (decide (0x61 ≤ c.toNat) && decide (c.toNat ≤ 0x7A)) ||
  (decide (0x41 ≤ c.toNat) && decide (c.toNat ≤ 0x5A))

/-- Rust `str::trim`: strip leading and trailing whitespace. -/
def trimC (cs : List Char) : List Char :=
  ((cs.dropWhile isWs).reverse.dropWhile isWs).reverse

/-- Single-pass worker for `splitWs`; the accumulator holds the reversed
characters of the token currently being read (`none` while in whitespace). -/
def splitWsGo : List Char → Option (List Char) → List (List Char)
  | [], none => []
  | [], some acc => [acc.reverse]
  | c :: cs, none =>
    if isWs c then splitWsGo cs none else splitWsGo cs (some [c])
  | c :: cs, some acc =>
    if isWs c then acc.reverse :: splitWsGo cs none
    else splitWsGo cs (some (c :: acc))

/-- Rust `str::split_whitespace`: the maximal non-whitespace runs, in order. -/
def splitWs (cs : List Char) : List (List Char) :=
  splitWsGo cs none

/-- Worker for `findSub`. -/
def findSubGo (pat : List Char) : List Char → Nat → Option Nat
  | cs, i =>
    if pat.isPrefixOf cs then some i
    else
      match cs with
      | [] => none
      | _ :: cs' => findSubGo pat cs' (i + 1)

/-- Rust `str::find(pattern)` for a literal pattern: offset of the first
occurrence of `pat` as a contiguous sub-sequence. -/
def findSub (pat cs : List Char) : Option Nat :=
  findSubGo pat cs 0

/-! ## `src/bufkit_data/mod.rs`: the missing-value convention -/

/-- The missing-value sentinel `MISSING_F64 = -9999.0` from
`src/bufkit_data/mod.rs`. -/
def MISSING_F64 : ℚ := -9999

/-- `check_missing` from `src/bufkit_data/mod.rs` (lines 121–127): convert the
raw sentinel into "absent", all other values into "present"; an
`Optioned<f64>` is modelled as `Option ℚ`. -/
def check_missing (val : ℚ) : Option ℚ :=
  if val = MISSING_F64 then none else some val

/-! ## `src/bufkit_data/upper_air.rs`: upper-air record validation

`UpperAir::validate` only inspects the lengths of the nine profile vectors, so
the record is modelled by those vectors (payload `Option ℚ` as in the source,
where every level entry is an `Optioned` scalar; the wind levels are
`Optioned<WindSpdDir<Knots>>`, modelled as optional pairs). -/

/-- The profile-array portion of `UpperAir` (`src/bufkit_data/upper_air.rs`,
lines 43–51); only the fields inspected by `validate` are modelled. -/
structure UpperAirProfiles where
  pressure : List (Option ℚ)
  temperature : List (Option ℚ)
  wet_bulb : List (Option ℚ)
  dew_point : List (Option ℚ)
  theta_e : List (Option ℚ)
  wind : List (Option (ℚ × ℚ))
  omega : List (Option ℚ)
  height : List (Option ℚ)
  cloud_fraction : List (Option ℚ)

namespace UpperAirProfiles

/-- The closure `is_valid_length` inside `UpperAir::validate`
(`src/bufkit_data/upper_air.rs`, lines 118–124); the captured pressure length
becomes the second argument. -/
def is_valid_length (l len : Nat) : Except Unit Unit :=
  if l = 0 ∨ l = len then Except.ok () else Except.error ()

/-- `UpperAir::validate` (`src/bufkit_data/upper_air.rs`, lines 111–136):
pressure must be non-empty, every other profile array must have length `0` or
the pressure length.  `Except Unit Unit` models `Result<(), BufkitFileError>`. -/
def validate (ua : UpperAirProfiles) : Except Unit Unit :=
  let len := ua.pressure.length
  if len = 0 then Except.error () else
  do
    let _ ← is_valid_length ua.temperature.length len
    let _ ← is_valid_length ua.wet_bulb.length len
    let _ ← is_valid_length ua.dew_point.length len
    let _ ← is_valid_length ua.theta_e.length len
    let _ ← is_valid_length ua.wind.length len
    let _ ← is_valid_length ua.omega.length len
    let _ ← is_valid_length ua.height.length len
    let _ ← is_valid_length ua.cloud_fraction.length len
    Except.ok ()

end UpperAirProfiles

/-- A profile length is consistent when it is zero or matches the pressure
length (spec §4.5). -/
def lenOk (len plen : Nat) : Prop := len = 0 ∨ len = plen

/-! ## `src/bufkit_data/surface.rs`: the surface column layout -/

/-- `SfcColName` from `src/bufkit_data/surface.rs` (lines 226–254). -/
inductive SfcColName
  | NONE | STN | VALIDTIME | PMSL | PRES | LCLD | MCLD | HCLD | UWND | VWND
  | T2MS | TD2M | SKTC | STC1 | SNFL | P01M | C01M | STC2 | SNRA | WXTS
  | WXTP | WXTZ | WXTR | USTM | VSTM | HLCY | WSYM
  deriving DecidableEq, Repr

/-- The header-token match inside `SurfaceData::parse_columns`
(`src/bufkit_data/surface.rs`, lines 61–91): recognized tags map to their
column name, everything else to the placeholder `NONE`. -/
def recogSfc (tok : List Char) : SfcColName :=
  if tok = "STN".data then .STN
  else if tok = "YYMMDD/HHMM".data then .VALIDTIME
  else if tok = "PMSL".data then .PMSL
  else if tok = "PRES".data then .PRES
  else if tok = "LCLD".data then .LCLD
  else if tok = "MCLD".data then .MCLD
  else if tok = "HCLD".data then .HCLD
  else if tok = "UWND".data then .UWND
  else if tok = "VWND".data then .VWND
  else if tok = "T2MS".data then .T2MS
  else if tok = "TD2M".data then .TD2M
  else if tok = "SKTC".data then .SKTC
  else if tok = "STC1".data then .STC1
  else if tok = "SNFL".data then .SNFL
  else if tok = "P01M".data then .P01M
  else if tok = "C01M".data then .C01M
  else if tok = "STC2".data then .STC2
  else if tok = "SNRA".data then .SNRA
  else if tok = "WXTS".data then .WXTS
  else if tok = "WXTP".data then .WXTP
  else if tok = "WXTZ".data then .WXTZ
  else if tok = "WXTR".data then .WXTR
  else if tok = "USTM".data then .USTM
  else if tok = "VSTM".data then .VSTM
  else if tok = "HLCY".data then .HLCY
  else if tok = "WSYM".data then .WSYM
  else .NONE

/-- `SurfaceData::parse_columns` (`src/bufkit_data/surface.rs`, lines 52–104):
tokenize the (trimmed) header, map every token through the vocabulary, and
fail (`MissingRequiredColumn`, modelled as `none`) when the station-number tag
or the valid-time tag is not found in the result. -/
def parse_columns (header : List Char) : Option (List SfcColName) :=
  if SfcColName.STN ∈ (splitWs (trimC header)).map recogSfc ∧
      SfcColName.VALIDTIME ∈ (splitWs (trimC header)).map recogSfc then
    some ((splitWs (trimC header)).map recogSfc)
  else none

/-! ## `src/bufkit_data/surface_section.rs`: surface-section construction -/

/-- The header-end scan of `SurfaceSection::new`
(`src/bufkit_data/surface_section.rs`, lines 17–31): the position of the
first decimal digit immediately preceded by a whitespace character.  The
`prev` argument models the `previous_char` variable (initialized to `'x'`). -/
def findWsDigitGo : List Char → Char → Nat → Option Nat
  | [], _, _ => none
  | c :: cs, prev, i =>
    if isWs prev && isDigitC c then some i else findWsDigitGo cs c (i + 1)

/-- Entry point of the header-end scan with its initial state. -/
def findWsDigit (text : List Char) : Option Nat :=
  findWsDigitGo text 'x' 0

/-- Specification-side predicate: `text` contains no decimal digit immediately
preceded by a whitespace character (checked pair by adjacent pair). -/
def noWsDigitPair : List Char → Bool
  | [] => true
  | [_] => true
  | a :: b :: rest => !(isWs a && isDigitC b) && noWsDigitPair (b :: rest)

/-- `SurfaceSection::new` (`src/bufkit_data/surface_section.rs`, lines 15–41):
locate the end of the header (first digit preceded by whitespace; error if
there is none), parse the column layout from the header, and keep the trimmed
remainder as the section's raw text. -/
def surfaceSectionNew (text : List Char) : Option (List SfcColName × List Char) :=
  match findWsDigit text with
  | none => none
  | some headerEnd =>
    match parse_columns (trimC (text.take headerEnd)) with
    | none => none
    | some cols => some (cols, trimC (text.drop headerEnd))

/-- The fixed section marker `"STN YYMMDD/HHMM"` from
`BufkitData::find_break_point` (`src/bufkit_data.rs`, lines 101–106). -/
def marker : List Char := "STN YYMMDD/HHMM".data

/-- `BufkitData::init`/`new_with_break_point` (`src/bufkit_data.rs`, lines
83–106): find the marker (error if absent), keep everything before it as the
upper-air block and construct the surface section from the marker onward.
`UpperAirSection::new` is modelled from the spec: §4.6 describes the upper-air
section as a lazy iterator over the stored text block, so its construction
(whose source, `upper_air_section.rs`, is not under `src/`) always succeeds
and simply stores the slice. -/
def bufkitDataNew (text : List Char) :
    Option (List Char × (List SfcColName × List Char)) :=
  match findSub marker text with
  | none => none
  | some bp =>
    match surfaceSectionNew (text.drop bp) with
    | none => none
    | some ss => some (text.take bp, ss)

/-! ## `src/bufkit_data/upper_air/profile.rs`: the profile column layout -/

/-- `ColName` from `src/bufkit_data/upper_air/profile.rs` (lines 126–139). -/
inductive ProfColName
  | NONE | PRES | TMPC | TMWC | DWPC | THTE | DRCT | SKNT | OMEG | CFRL | HGHT
  deriving DecidableEq, Repr

/-- The header-token match inside `Profile::get_column_indexes`
(`src/bufkit_data/upper_air/profile.rs`, lines 46–58): `none` for a token
outside the closed vocabulary (the `_ => return Err(...)` arm). -/
def recogProf (tok : List Char) : Option ProfColName :=
  if tok = "PRES".data then some .PRES
  else if tok = "TMPC".data then some .TMPC
  else if tok = "TMWC".data then some .TMWC
  else if tok = "DWPC".data then some .DWPC
  else if tok = "THTE".data then some .THTE
  else if tok = "DRCT".data then some .DRCT
  else if tok = "SKNT".data then some .SKNT
  else if tok = "OMEG".data then some .OMEG
  else if tok = "CFRL".data then some .CFRL
  else if tok = "HGHT".data then some .HGHT
  else none

/-- Outcome of `Profile::get_column_indexes`: a successful layout, the
`UnrecognizedColumn` error, or a panic from writing past the end of the
fixed-size `[ColName; 10]` array. -/
inductive ColsRes
  | ok (names : List ProfColName)
  | err
  | panic
  deriving DecidableEq, Repr

/-- The `enumerate` loop of `Profile::get_column_indexes`
(`src/bufkit_data/upper_air/profile.rs`, lines 45–59): `names` models the
fixed array `[ColName; 10]`, and the write `cols.names[i] = …` panics when
`i` is out of bounds. -/
def getColumnIndexesGo : List (List Char) → Nat → List ProfColName → ColsRes
  | [], _, names => .ok names
  | t :: ts, i, names =>
    match recogProf t with
    | none => .err
    | some cn =>
      if i < 10 then getColumnIndexesGo ts (i + 1) (names.set i cn) else .panic

/-- `Profile::get_column_indexes` (`src/bufkit_data/upper_air/profile.rs`,
lines 40–62). -/
def getColumnIndexes (header : List Char) : ColsRes :=
  getColumnIndexesGo (splitWs (trimC header)) 0 (List.replicate 10 .NONE)

/-! ## `src/parse_util.rs`: the datetime parser -/

/-- Result of a Rust computation that can succeed, return `Err`, or panic. -/
inductive RRes (α : Type)
  | ok (a : α)
  | err
  | panic
  deriving DecidableEq, Repr

/-- `chrono::NaiveDateTime`, modelled by its calendar fields. -/
structure NDT where
  year : Int
  month : Nat
  day : Nat
  hour : Nat
  minute : Nat
  second : Nat
  deriving DecidableEq, Repr

/-- The numeric value of a non-empty all-digit string, `none` otherwise. -/
def digitsVal (cs : List Char) : Option Nat :=
  if cs = [] then none
  else if cs.all isDigitC then
    some (cs.foldl (fun n c => n * 10 + (c.toNat - '0'.toNat)) 0)
  else none

/-- Rust `u32::from_str` (ASCII, overflow-free fragment: the inputs here are
at most two characters): an optional leading `'+'` followed by digits. -/
def parseU32 (cs : List Char) : Option Nat :=
  match cs with
  | '+' :: rest => digitsVal rest
  | _ => digitsVal cs

/-- Rust `i32::from_str` (ASCII, overflow-free fragment): an optional leading
sign followed by digits. -/
def parseI32v (cs : List Char) : Option Int :=
  match cs with
  | '+' :: rest => (digitsVal rest).map Int.ofNat
  | '-' :: rest => (digitsVal rest).map (fun n => -(n : Int))
  | _ => (digitsVal cs).map Int.ofNat

/-- The proleptic-Gregorian leap-year rule used by `chrono`. -/
def isLeap (y : Int) : Bool :=
  (y % 4 == 0 && y % 100 != 0) || (y % 400 == 0)

/-- Days in a month of the proleptic Gregorian calendar (`0` for an invalid
month number). -/
def daysInMonth (y : Int) (m : Nat) : Nat :=
  match m with
  | 1 => 31
  | 2 => if isLeap y then 29 else 28
  | 3 => 31
  | 4 => 30
  | 5 => 31
  | 6 => 30
  | 7 => 31
  | 8 => 31
  | 9 => 30
  | 10 => 31
  | 11 => 30
  | 12 => 31
  | _ => 0

/-- The validity condition of `chrono::NaiveDate::from_ymd` (which panics on an
invalid date).  The years reachable here are `1901..=2099`, well inside
chrono's representable range, so the range check is not modelled. -/
def validYMD (y : Int) (m d : Nat) : Bool :=
  decide (1 ≤ m) && decide (m ≤ 12) && decide (1 ≤ d) && decide (d ≤ daysInMonth y m)

/-- `parse_naive_date_time` from `src/parse_util.rs` (lines 152–163): trim,
then read the five two-character fields at byte ranges `[0,2)`, `[2,4)`,
`[4,6)`, `[7,9)`, `[9,11)` of the trimmed input.  A slice whose end exceeds
the input length panics (Rust byte-slicing), a field that fails integer
parsing is an error (`?` on `from_str`), and `NaiveDate::from_ymd` /
`and_hms` panic on out-of-range values.  The character at position 6 is never
read, and characters past position 11 are ignored. -/
def parse_naive_date_time (src : List Char) : RRes NDT :=
  let t := trimC src
  if 2 ≤ t.length then
    match parseI32v (t.take 2) with
    | none => .err
    | some yv =>
      if 4 ≤ t.length then
        match parseU32 ((t.drop 2).take 2) with
        | none => .err
        | some month =>
          if 6 ≤ t.length then
            match parseU32 ((t.drop 4).take 2) with
            | none => .err
            | some day =>
              if 9 ≤ t.length then
                match parseU32 ((t.drop 7).take 2) with
                | none => .err
                | some hour =>
                  if 11 ≤ t.length then
                    match parseU32 ((t.drop 9).take 2) with
                    | none => .err
                    | some minute =>
                      if validYMD (yv + 2000) month day = true then
                        if hour ≤ 23 ∧ minute ≤ 59 then
                          .ok ⟨yv + 2000, month, day, hour, minute, 0⟩
                        else .panic
                      else .panic
                  else .panic
              else .panic
          else .panic
      else .panic
  else .panic

/-- Decidable equality for `Except`, so that concrete scanner results can be
checked by `decide`. -/
instance {e a : Type} [DecidableEq e] [DecidableEq a] : DecidableEq (Except e a)
  | .error x, .error y =>
    if h : x = y then isTrue (by rw [h]) else isFalse (fun hc => h (by cases hc; rfl))
  | .error _, .ok _ => isFalse (fun hc => Except.noConfusion hc)
  | .ok _, .error _ => isFalse (fun hc => Except.noConfusion hc)
  | .ok x, .ok y =>
    if h : x = y then isTrue (by rw [h]) else isFalse (fun hc => h (by cases hc; rfl))

/-! ## `src/parse_util.rs`: `find_next_n_tokens` -/

/-- The character class of the scanner's `started` branch:
`c.is_numeric() || c == '-' || c == '.'` (ASCII fragment). -/
def numish (c : Char) : Bool :=
  isDigitC c || c == '-' || c == '.'

/-- The character loop of `find_next_n_tokens` (`src/parse_util.rs`, lines
238–265).  State: current index `i`, the `started` and `in_white_space` flags
and `token_count`.  After updating the state for the current character the
loop returns `Ok(Some(i))` once `token_count == n`; at the end of the string
it returns `Ok(Some(src.len()))` when not inside whitespace with exactly
`n - 1` counted boundaries, `Err` when any boundary was counted, and
`Ok(None)` otherwise. -/
def fnntGo (n : Nat) : List Char → Nat → Bool → Bool → Nat → Except Unit (Option Nat)
  | [], i, _started, inWs, count =>
    if !inWs ∧ count = n - 1 then Except.ok (some i)
    else if 0 < count then Except.error ()
    else Except.ok none
  | c :: cs, i, started, inWs, count =>
    let st :=
      if !started && numish c then (true, inWs, count)
      else if !inWs && isWs c then (started, true, count + 1)
      else if inWs && !isWs c then (started, false, count)
      else (started, inWs, count)
    if st.2.2 = n then Except.ok (some i)
    else fnntGo n cs (i + 1) st.1 st.2.1 st.2.2

/-- `find_next_n_tokens` (`src/parse_util.rs`, lines 229–266): `Ok(None)` for
an all-whitespace input, otherwise run the scan with `started = false` and
`in_white_space = src.starts_with(char::is_whitespace)`. -/
def find_next_n_tokens (src : List Char) (n : Nat) : Except Unit (Option Nat) :=
  if trimC src = [] then Except.ok none
  else
    fnntGo n src 0 false
      (match src with
       | [] => false
       | c :: _ => isWs c) 0

/-! ## `src/bufkit_data/surface_section.rs`: the surface iterator

`SurfaceIterator::next` (lines 92–104) loops: carve the next
`num_cols`-token chunk with `get_next_chunk` (lines 80–90, a thin wrapper
over `find_next_n_tokens`), try to decode it, skip it on decode failure, and
stop on `Ok(None)` or on a `TokenCountError`.  The row decoder
`SurfaceData::parse_values` (with the iterator's fixed column layout) is
abstracted as a `decode` parameter; `n` is `self.columns.num_cols()`.  The
recursion is written with explicit fuel (one unit per consumed chunk; each
carved chunk is non-empty when `n ≥ 1`, so `remaining.length + 1` units
always suffice — for the degenerate, unreachable `n = 0` the Rust loop would
not terminate, and exhausted fuel returns `none`). -/

/-- Fuelled worker for `SurfaceIterator::next`. -/
def surfaceIterNextFuel {α : Type} (decode : List Char → Option α) (n : Nat) :
    Nat → List Char → Option (α × List Char)
  | 0, _ => none
  | fuel + 1, remaining =>
    match find_next_n_tokens remaining n with
    | .error _ => none
    | .ok none => none
    | .ok (some brk) =>
      match decode (remaining.take brk) with
      | some sd => some (sd, remaining.drop brk)
      | none => surfaceIterNextFuel decode n fuel (remaining.drop brk)

/-- `SurfaceIterator::next`: the next decoded record together with the text
remaining after it (`none` when the iterator is exhausted). -/
def surfaceIterNext {α : Type} (decode : List Char → Option α) (n : Nat)
    (remaining : List Char) : Option (α × List Char) :=
  surfaceIterNextFuel decode n (remaining.length + 1) remaining

/-- Specification-side: the sequence of chunks that `get_next_chunk` carves
from the remaining text (fuelled like the iterator). -/
def chunksFuel (n : Nat) : Nat → List Char → List (List Char)
  | 0, _ => []
  | fuel + 1, remaining =>
    match find_next_n_tokens remaining n with
    | .error _ => []
    | .ok none => []
    | .ok (some brk) => remaining.take brk :: chunksFuel n fuel (remaining.drop brk)

/-- Specification-side: all chunks carved from `remaining`. -/
def chunkList (n : Nat) (remaining : List Char) : List (List Char) :=
  chunksFuel n (remaining.length + 1) remaining

/-- Specification-side scan with the `started` flag removed (the behaviour of
`fnntGo` once `started` is `true`, or while no `numish` character has been
seen).  Used to relate the source scanner to the token structure. -/
def pureGo (n : Nat) : List Char → Nat → Bool → Nat → Except Unit (Option Nat)
  | [], i, inWs, count =>
    if !inWs ∧ count = n - 1 then Except.ok (some i)
    else if 0 < count then Except.error ()
    else Except.ok none
  | c :: cs, i, inWs, count =>
    let st :=
      if !inWs && isWs c then (true, count + 1)
      else if inWs && !isWs c then (false, count)
      else (inWs, count)
    if st.2 = n then Except.ok (some i)
    else pureGo n cs (i + 1) st.1 st.2

/-- Specification-side: the offset just past the `r`-th whitespace-delimited
token (`inTok` records whether the scan is currently inside a token); if the
text ends inside the `r`-th token, this is the text length. -/
def offAfter : List Char → Bool → Nat → Nat
  | [], _, _ => 0
  | c :: cs, inTok, r =>
    if isWs c then
      if inTok then (if r ≤ 1 then 0 else 1 + offAfter cs false (r - 1))
      else 1 + offAfter cs false r
    else 1 + offAfter cs true r

/-- Specification-side: does the text end in a non-whitespace character? -/
def endsNonWs (cs : List Char) : Bool :=
  match cs.getLast? with
  | none => false
  | some c => !isWs c

/-! ## `src/bufkit_data/upper_air/station_info.rs`: the station-info decoder

`StationInfo::parse` in `src/` calls the key-value helpers of a newer
`parse_util.rs` revision that is not under `src/` (the `parse_util.rs` in
`src/` is an older revision whose `parse_f64`/`parse_i32` return raw values
and scan from the key's start, incompatible with `station_info.rs`'s types).
Those helpers are therefore modelled from the spec, §4.1. -/

/-- `isSome`-style accessor for `RRes`. -/
def RRes.isOk {α : Type} : RRes α → Bool
  | .ok _ => true
  | _ => false

/-- The digits of a numeral, most significant first, as a natural number. -/
def natOfDigits (cs : List Char) : Nat :=
  cs.foldl (fun n c => n * 10 + (c.toNat - 0x30)) 0

/-- Decimal fragment of Rust `f64::from_str` for an unsigned value:
`digits+ ['.' digits*]?`.  (The value substrings produced by the key-value
scanner only contain digits, `'.'` and `'-'`, so the exponent/infinity/NaN
forms of `from_str` are unreachable here.) -/
def parseUnsignedDecimal (cs : List Char) : Option ℚ :=
  if cs.takeWhile isDigitC = [] then none
  else
    match cs.dropWhile isDigitC with
    | [] => some (natOfDigits (cs.takeWhile isDigitC) : ℚ)
    | '.' :: frac =>
      if frac.all isDigitC then
        some ((natOfDigits (cs.takeWhile isDigitC) : ℚ) +
          (natOfDigits frac : ℚ) / (10 : ℚ) ^ frac.length)
      else none
    | _ => none

/-- Decimal fragment of Rust `f64::from_str`: optional leading minus. -/
def parseDecimal (cs : List Char) : Option ℚ :=
  match cs with
  | '-' :: rest => (parseUnsignedDecimal rest).map (fun q => -q)
  | _ => parseUnsignedDecimal cs

/-- Modelled from the spec: `find_key_value` / `parse_kv` of the newer
`parse_util.rs` revision (spec §4.1): locate `key` anywhere in `text`, scan
forward from (after) the key to the first character satisfying
`is_value_start`, then up to the first following character satisfying
`is_value_end` (or the end of the string); return the trimmed value substring
and the suffix from the value's end.  Fails (`MalformedKeyValue`) when the
key is absent or no value-start character follows it.  (Scanning after the
key rather than from its start is forced by spec §4.2: the `STID`-absent case
must make the first decoded value be `STNM`'s own tag.) -/
def parse_kv (src key : List Char) (startP endP : Char → Bool) :
    Option (List Char × List Char) :=
  match findSub key src with
  | none => none
  | some idx =>
    match (src.drop (idx + key.length)).findIdx? startP with
    | none => none
    | some j =>
      let head := (src.drop (idx + key.length)).drop j
      let tailIdx :=
        match head.findIdx? endP with
        | none => head.length
        | some k => k
      some (trimC (head.take tailIdx), head.drop tailIdx)

/-- Modelled from the spec: `parse_f64` of the newer `parse_util.rs` revision
(spec §4.1 composed with the §3 missing-value convention; its `Optioned`
return type is witnessed by its callers in `src/`: `indexes.rs` treats the
first component as `Optioned<f64>` and `station_info.rs` stores it in
`Optioned` fields). -/
def parse_f64_kv (src key : List Char) : Option (Option ℚ × List Char) :=
  match parse_kv src key (fun c => isDigitC c || c == '-')
      (fun c => !(isDigitC c || c == '.' || c == '-')) with
  | none => none
  | some (val, head) =>
    match parseDecimal val with
    | none => none
    | some q => some (check_missing q, head)

/-- Modelled from the spec: `parse_i32` of the newer `parse_util.rs` revision
(spec §4.1): key-value extraction with digit start/end classes followed by
integer conversion. -/
def parse_i32_kv (src key : List Char) : Option (Int × List Char) :=
  match parse_kv src key isDigitC (fun c => !isDigitC c) with
  | none => none
  | some (val, head) =>
    match digitsVal val with
    | none => none
    | some v => some ((v : Int), head)

/-- `StationInfo` (`src/bufkit_data/upper_air/station_info.rs`, lines 10–19);
the station id is kept as raw characters. -/
structure StationInfoR where
  num : Int
  valid_time : NDT
  lead_time : Int
  id : Option (List Char)
  lat : Option ℚ
  lon : Option ℚ
  elevation : Option ℚ
  deriving DecidableEq, Repr

/-- `StationInfo::parse` (`src/bufkit_data/upper_air/station_info.rs`, lines
23–84): fixed key order `STID, STNM, TIME, SLAT, SLON, SELV, STIM`, each step
scanning the remainder left by the previous one; an empty `STID` value is
detected by the first decoded value being `STNM`'s own tag, in which case the
scan restarts from the full text.  Every helper failure propagates (`?`). -/
def stationInfoParse (src : List Char) : RRes StationInfoR :=
  match parse_kv src "STID".data isAlnum (fun c => !isAlnum c) with
  | none => .err
  | some (station_id, head0) =>
    let idh : Option (List Char) × List Char :=
      if station_id = "STNM".data then (none, src) else (some station_id, head0)
    match parse_i32_kv idh.2 "STNM".data with
    | none => .err
    | some (station_num, head2) =>
      match parse_kv head2 "TIME".data isDigitC
          (fun c => !(isDigitC c || c == '/')) with
      | none => .err
      | some (val, head3) =>
        match parse_naive_date_time val with
        | .err => .err
        | .panic => .panic
        | .ok vt =>
          match parse_f64_kv head3 "SLAT".data with
          | none => .err
          | some (lat, head4) =>
            match parse_f64_kv head4 "SLON".data with
            | none => .err
            | some (lon, head5) =>
              match parse_f64_kv head5 "SELV".data with
              | none => .err
              | some (elv, head6) =>
                match parse_i32_kv head6 "STIM".data with
                | none => .err
                | some (lt, _) =>
                  .ok ⟨station_num, vt, lt, idh.1, lat, lon, elv⟩

/-- The merge loop of `SoundingIterator::next` (`src/src/bufkit_data/mod.rs`
lines 263–282 and, identically, `src/src/bufkit_data.rs` lines 129–148),
unrolled over the whole iteration.  The two streams are modelled as lists of
(valid-time, record) pairs; `ua, sd` are the currently popped records and
`uas, sds` the records still inside the two sub-iterators.  `sd.1 < ua.1`
advances the surface cursor (the first inner `while`; an exhausted iterator
ends the whole iteration via `?`), `ua.1 < sd.1` advances the upper-air
cursor (the second inner `while`), equality emits the combined pair and the
next call to `next` re-pops both cursors.  The final branch (neither `<` nor
`=`) mirrors the outer `loop` retrying; under a linear time order it is
unreachable.  `fuel` is a structural-recursion bound; every reachable branch
consumes a list element, so `uas.length + sds.length + 1` steps suffice. -/
def mergeLoopFuel {τ α β : Type} [LinearOrder τ] :
    Nat → (τ × α) → List (τ × α) → (τ × β) → List (τ × β) →
      List ((τ × α) × (τ × β))
  | 0, _, _, _, _ => []
  | fuel + 1, ua, uas, sd, sds =>
    if sd.1 < ua.1 then
      match sds with
      | [] => []
      | sd' :: sds' => mergeLoopFuel fuel ua uas sd' sds'
    else if ua.1 < sd.1 then
      match uas with
      | [] => []
      | ua' :: uas' => mergeLoopFuel fuel ua' uas' sd sds
    else if ua.1 = sd.1 then
      (ua, sd) ::
        (match uas, sds with
         | ua' :: uas', sd' :: sds' => mergeLoopFuel fuel ua' uas' sd' sds'
         | _, _ => [])
    else
      mergeLoopFuel fuel ua uas sd sds

/-- The full output stream of `SoundingIterator`: the first call to `next`
pops one record from each sub-iterator (returning `None` at once if either is
empty) and enters the merge loop. -/
def soundingOutput {τ α β : Type} [LinearOrder τ]
    (uas : List (τ × α)) (sds : List (τ × β)) : List ((τ × α) × (τ × β)) :=
  match uas, sds with
  | ua :: uas', sd :: sds' =>
    mergeLoopFuel (uas'.length + sds'.length + 1) ua uas' sd sds'
  | _, _ => []

/-- Written from the claim's words: the sequence of (upper-air, surface)
pairs whose valid times are exactly equal — for each upper-air record in
stream order, the first surface record carrying exactly its valid time, if
any; unmatched records on either side contribute nothing. -/
def matchedPairs {τ α β : Type} [LinearOrder τ]
    (uas : List (τ × α)) (sds : List (τ × β)) : List ((τ × α) × (τ × β)) :=
  uas.filterMap (fun ua =>
    (sds.find? (fun sd => decide (sd.1 = ua.1))).map (fun sd => (ua, sd)))

/-- Strictly increasing valid times along a record stream. -/
def strictTimes {τ α : Type} [LinearOrder τ] : List (τ × α) → Bool
  | [] => true
  | [_] => true
  | a :: b :: rest => decide (a.1 < b.1) && strictTimes (b :: rest)

/-!
# Theorems
-/

/-! ## Claim C2: upper-air profile-length validation -/

theorem exceptBind_ok (y : Except Unit Unit) :
    (Except.ok () >>= fun _ => y) = y := rfl

theorem exceptBind_error (y : Except Unit Unit) :
    ((Except.error () : Except Unit Unit) >>= fun _ => y) = Except.error () := rfl

theorem is_valid_length_step (l len : Nat) (y : Except Unit Unit) :
    ((UpperAirProfiles.is_valid_length l len >>= fun _ => y) = Except.ok ()) ↔
      lenOk l len ∧ y = Except.ok () := by
  unfold UpperAirProfiles.is_valid_length lenOk
  by_cases h : l = 0 ∨ l = len <;> simp [h, exceptBind_ok, exceptBind_error]

/-- **C2.** `UpperAir::validate` succeeds iff the pressure array is non-empty
and every other profile array has length zero or exactly the pressure array's
length; any violation yields the `InconsistentProfileLength` error. -/
theorem upperAir_validate_ok_iff (ua : UpperAirProfiles) :
    ua.validate = Except.ok () ↔
      ua.pressure ≠ [] ∧
      lenOk ua.temperature.length ua.pressure.length ∧
      lenOk ua.wet_bulb.length ua.pressure.length ∧
      lenOk ua.dew_point.length ua.pressure.length ∧
      lenOk ua.theta_e.length ua.pressure.length ∧
      lenOk ua.wind.length ua.pressure.length ∧
      lenOk ua.omega.length ua.pressure.length ∧
      lenOk ua.height.length ua.pressure.length ∧
      lenOk ua.cloud_fraction.length ua.pressure.length := by
  have hne : ua.pressure ≠ [] ↔ ¬ ua.pressure.length = 0 := by
    rw [ne_eq, not_iff_not, List.length_eq_zero]
  unfold UpperAirProfiles.validate
  by_cases h0 : ua.pressure.length = 0
  · simp [h0, hne]
  · simp only [h0, if_false, hne, not_false_iff, true_and]
    rw [is_valid_length_step, is_valid_length_step, is_valid_length_step,
      is_valid_length_step, is_valid_length_step, is_valid_length_step,
      is_valid_length_step, is_valid_length_step]
    simp [and_assoc]

/-! ## Claim C3: the missing-value sentinel -/

/-- **C3.** Decoding a raw scalar yields "absent" exactly when the raw value
equals the sentinel `-9999.0` (exact equality); any other value is passed
through unchanged, and in particular never becomes "absent". -/
theorem check_missing_spec (v : ℚ) :
    (check_missing v = none ↔ v = MISSING_F64) ∧
    (∀ w, check_missing v = some w ↔ v ≠ MISSING_F64 ∧ w = v) := by
  unfold check_missing
  by_cases h : v = MISSING_F64 <;> simp [h]
  exact fun w => eq_comm

/-- Closed-form instance of `check_missing_spec` at the sentinel and at `3`. -/
theorem check_missing_spec_witness :
    (check_missing (-9999) = none ↔ (-9999 : ℚ) = MISSING_F64) ∧
    (check_missing 3 = some 3 ↔ (3 : ℚ) ≠ MISSING_F64 ∧ (3 : ℚ) = 3) :=
  ⟨(check_missing_spec (-9999)).1, (check_missing_spec 3).2 3⟩

/-! ## Claim C6: required surface columns -/

theorem ne_ite_tag {v a b : SfcColName} (c : Prop) [inst : Decidable c]
    (ha : a ≠ v) (hb : b ≠ v) : (if c then a else b) ≠ v := by
  split_ifs <;> assumption

theorem recogSfc_eq_STN (t : List Char) :
    recogSfc t = SfcColName.STN ↔ t = "STN".data := by
  constructor
  · intro h
    by_contra hne
    revert h
    unfold recogSfc
    rw [if_neg hne]
    refine ne_ite_tag _ (by decide) ?_
    repeat' refine ne_ite_tag _ (by decide) ?_
    decide
  · rintro rfl
    decide

theorem recogSfc_eq_VALIDTIME (t : List Char) :
    recogSfc t = SfcColName.VALIDTIME ↔ t = "YYMMDD/HHMM".data := by
  constructor
  · intro h
    by_contra hne
    revert h
    unfold recogSfc
    refine ne_ite_tag _ (by decide) ?_
    rw [if_neg hne]
    refine ne_ite_tag _ (by decide) ?_
    repeat' refine ne_ite_tag _ (by decide) ?_
    decide
  · rintro rfl
    decide

theorem mem_map_recogSfc_STN (ts : List (List Char)) :
    SfcColName.STN ∈ ts.map recogSfc ↔ "STN".data ∈ ts := by
  simp only [List.mem_map]
  constructor
  · rintro ⟨t, ht, hr⟩
    rw [(recogSfc_eq_STN t).mp hr] at ht
    exact ht
  · intro h
    exact ⟨_, h, (recogSfc_eq_STN _).mpr rfl⟩

theorem mem_map_recogSfc_VALIDTIME (ts : List (List Char)) :
    SfcColName.VALIDTIME ∈ ts.map recogSfc ↔ "YYMMDD/HHMM".data ∈ ts := by
  simp only [List.mem_map]
  constructor
  · rintro ⟨t, ht, hr⟩
    rw [(recogSfc_eq_VALIDTIME t).mp hr] at ht
    exact ht
  · intro h
    exact ⟨_, h, (recogSfc_eq_VALIDTIME _).mpr rfl⟩

/-- **C6 counterexample.**  The header `"STN PMSL"` contains the mandatory
station-number tag `STN` (so only the valid-time tag is absent), yet
`parse_columns` rejects it — refuting "fails only if both required tags are
absent". -/
theorem parse_columns_cex :
    "STN".data ∈ splitWs (trimC "STN PMSL".data) ∧
      parse_columns "STN PMSL".data = none := by
  decide

/-- **C6 (amended).** `SurfaceData::parse_columns` succeeds iff the header
contains the station-number tag *and* the valid-time tag (it fails with
`MissingRequiredColumn` as soon as either of the two is absent); on success
the layout is the token list mapped through the vocabulary, with unrecognized
tokens as placeholder `NONE` tags. -/
theorem parse_columns_ok_iff (header : List Char) (cols : List SfcColName) :
    parse_columns header = some cols ↔
      "STN".data ∈ splitWs (trimC header) ∧
      "YYMMDD/HHMM".data ∈ splitWs (trimC header) ∧
      cols = (splitWs (trimC header)).map recogSfc := by
  unfold parse_columns
  split_ifs with h
  · simp only [Option.some.injEq]
    constructor
    · rintro rfl
      exact ⟨(mem_map_recogSfc_STN _).mp h.1, (mem_map_recogSfc_VALIDTIME _).mp h.2, rfl⟩
    · rintro ⟨-, -, rfl⟩
      rfl
  · simp only [reduceCtorEq, false_iff]
    rintro ⟨hs, hv, -⟩
    exact h ⟨(mem_map_recogSfc_STN _).mpr hs, (mem_map_recogSfc_VALIDTIME _).mpr hv⟩

/-! ## Claim C9: profile headers with more than ten tokens -/

theorem getColumnIndexesGo_panic_iff (ts : List (List Char)) :
    ∀ (i : Nat) (names : List ProfColName), i ≤ 10 →
      (getColumnIndexesGo ts i names = ColsRes.panic ↔
        (11 - i ≤ ts.length ∧
          ∀ t ∈ ts.take (11 - i), (recogProf t).isSome = true)) := by
  induction ts with
  | nil =>
    intro i names hi
    simp only [getColumnIndexesGo, List.length_nil, List.take_nil]
    constructor
    · intro hc
      exact absurd hc (by simp)
    · rintro ⟨hle, -⟩
      omega
  | cons t ts ih =>
    intro i names hi
    have hsucc : 11 - i = (10 - i) + 1 := by omega
    rw [hsucc, List.take_succ_cons]
    simp only [getColumnIndexesGo]
    cases hr : recogProf t with
    | none =>
      simp only [reduceCtorEq, false_iff]
      rintro ⟨-, hall⟩
      have := hall t (by simp)
      rw [hr] at this
      exact absurd this (by simp)
    | some cn =>
      by_cases hlt : i < 10
      · simp only [hlt, if_true]
        rw [ih (i + 1) (names.set i cn) (by omega)]
        have h10 : 11 - (i + 1) = 10 - i := by omega
        rw [h10]
        simp only [List.length_cons, List.mem_cons]
        constructor
        · rintro ⟨hle, hall⟩
          refine ⟨by omega, ?_⟩
          intro u hu
          rcases hu with hu | hu
          · subst hu; simp [hr]
          · exact hall u hu
        · rintro ⟨hle, hall⟩
          refine ⟨by omega, ?_⟩
          intro u hu
          exact hall u (Or.inr hu)
      · have h10 : i = 10 := by omega
        subst h10
        simp only [hlt, if_false]
        constructor
        · intro _
          refine ⟨by simp only [List.length_cons]; omega, ?_⟩
          intro u hu
          have hz : (10 : Nat) - 10 = 0 := rfl
          rw [hz, List.take_zero, List.mem_cons] at hu
          rcases hu with rfl | hu
          · simp [hr]
          · exact absurd hu (List.not_mem_nil u)
        · intro _
          trivial

/-- **C9 counterexample.**  A profile header with eleven tokens whose last
token is unrecognized makes `Profile::get_column_indexes` return the
`UnrecognizedColumn` error, not panic — refuting "panics for every header
with more than 10 tokens / returns a Result only when the header has at most
10 tokens". -/
theorem getColumnIndexes_cex :
    10 < (splitWs (trimC
        "PRES TMPC TMWC DWPC THTE DRCT SKNT OMEG CFRL HGHT XXXX".data)).length ∧
    getColumnIndexes
        "PRES TMPC TMWC DWPC THTE DRCT SKNT OMEG CFRL HGHT XXXX".data =
      ColsRes.err := by
  decide

/-- **C9 (amended).** `Profile::get_column_indexes` panics with an
out-of-bounds write into the fixed `[ColName; 10]` array exactly when the
header's first eleven tokens are all recognized column names; if an
unrecognized token occurs among them first, it returns the
`UnrecognizedColumn` error instead, and a header with at most ten tokens never
panics (it always returns a `Result`). -/
theorem getColumnIndexes_panic_characterization (header : List Char) :
    (10 < (splitWs (trimC header)).length →
      (getColumnIndexes header = ColsRes.panic ↔
        ∀ t ∈ (splitWs (trimC header)).take 11, (recogProf t).isSome = true)) ∧
    ((splitWs (trimC header)).length ≤ 10 →
      getColumnIndexes header ≠ ColsRes.panic) := by
  have hmain := getColumnIndexesGo_panic_iff (splitWs (trimC header)) 0
    (List.replicate 10 .NONE) (by omega)
  simp only [Nat.sub_zero] at hmain
  unfold getColumnIndexes
  constructor
  · intro hlen
    rw [hmain]
    simp only [iff_iff_implies_and_implies]
    constructor
    · rintro h u hu
      exact h.2 u hu
    · intro h
      exact ⟨by omega, h⟩
  · intro hlen hc
    have := (hmain.mp hc).1
    omega

/-- Closed instance of `getColumnIndexes_panic_characterization`: a header of
eleven recognized tokens does panic. -/
theorem getColumnIndexes_panic_witness :
    getColumnIndexes
        "PRES PRES PRES PRES PRES PRES PRES PRES PRES PRES PRES".data =
      ColsRes.panic :=
  ((getColumnIndexes_panic_characterization _).1 (by decide)).mpr (by decide)

/-! ## Claim C10: surface blocks with no whitespace-preceded digit -/

theorem chain'_iff_noWsDigitPair (cs : List Char) :
    List.Chain' (fun a b => isWs a = true → isDigitC b = false) cs ↔
      noWsDigitPair cs = true := by
  induction cs with
  | nil => simp [noWsDigitPair]
  | cons a t ih =>
    cases t with
    | nil => simp [noWsDigitPair]
    | cons b rest =>
      rw [List.chain'_cons, ih]
      have hdef : noWsDigitPair (a :: b :: rest) =
          ((!(isWs a && isDigitC b)) && noWsDigitPair (b :: rest)) := rfl
      rw [hdef]
      cases hw : isWs a <;> cases hd : isDigitC b <;>
        cases hnp : noWsDigitPair (b :: rest) <;> simp [hw, hd, hnp]

theorem findWsDigitGo_none (cs : List Char) :
    ∀ (prev : Char) (i : Nat),
      List.Chain' (fun a b => isWs a = true → isDigitC b = false) (prev :: cs) →
      findWsDigitGo cs prev i = none := by
  induction cs with
  | nil => intro prev i _; rfl
  | cons c cs ih =>
    intro prev i h
    rw [List.chain'_cons] at h
    simp only [findWsDigitGo]
    have hcond : (isWs prev && isDigitC c) = false := by
      cases hw : isWs prev with
      | true => simp [h.1 hw]
      | false => simp
    rw [hcond]
    simp only [Bool.false_eq_true, if_false]
    exact ih c (i + 1) h.2

/-- **C10.** If the surface block (the file suffix starting at the
`"STN YYMMDD/HHMM"` marker) contains no decimal digit immediately preceded by
a whitespace character — e.g. a header line with no data rows —
`SurfaceSection::new` fails before any row is decoded, and therefore building
the top-level `BufkitData` for the file fails as well, even though the
section marker and header are present. -/
theorem bufkit_no_surface_digit (file : List Char) (bp : Nat)
    (hbp : findSub marker file = some bp)
    (h : List.Chain' (fun a b => isWs a = true → isDigitC b = false)
      (file.drop bp)) :
    surfaceSectionNew (file.drop bp) = none ∧ bufkitDataNew file = none := by
  have hfind : findWsDigit (file.drop bp) = none := by
    unfold findWsDigit
    apply findWsDigitGo_none
    cases hdrop : file.drop bp with
    | nil => simp
    | cons c cs =>
      rw [List.chain'_cons]
      rw [hdrop] at h
      exact ⟨fun hx => absurd hx (by decide), h⟩
  have hss : surfaceSectionNew (file.drop bp) = none := by
    unfold surfaceSectionNew
    rw [hfind]
  refine ⟨hss, ?_⟩
  unfold bufkitDataNew
  rw [hbp]
  simp only [hss]

/-- Closed instance of `bufkit_no_surface_digit`: a file that is exactly the
surface header (marker plus one more column tag, no data rows) is rejected. -/
theorem bufkit_no_surface_digit_witness :
    surfaceSectionNew (("STN YYMMDD/HHMM PMSL".data).drop 0) = none ∧
    bufkitDataNew "STN YYMMDD/HHMM PMSL".data = none :=
  bufkit_no_surface_digit "STN YYMMDD/HHMM PMSL".data 0 (by decide)
    ((chain'_iff_noWsDigitPair _).mpr (by decide))

/-! ## Claim C5: tokenizer structure lemmas -/

theorem trimC_eq_nil_iff (cs : List Char) :
    trimC cs = [] ↔ ∀ c ∈ cs, isWs c = true := by
  unfold trimC
  rw [List.reverse_eq_nil_iff, List.dropWhile_eq_nil_iff]
  constructor
  · intro h c hc
    have hsplit := @List.takeWhile_append_dropWhile Char isWs cs
    rw [← hsplit] at hc
    rcases List.mem_append.mp hc with hc | hc
    · exact List.mem_takeWhile_imp hc
    · exact h c (List.mem_reverse.mpr hc)
  · intro h c hc
    exact h c ((List.dropWhile_sublist _).subset (List.mem_reverse.mp hc))

theorem splitWsGo_some (cs : List Char) :
    ∀ acc, splitWsGo cs (some acc) =
      (acc.reverse ++ cs.takeWhile (fun d => !isWs d)) ::
        splitWs (cs.dropWhile (fun d => !isWs d)) := by
  induction cs with
  | nil => intro acc; simp [splitWsGo, splitWs, List.takeWhile, List.dropWhile]
  | cons c cs ih =>
    intro acc
    by_cases hc : isWs c
    · rw [show splitWsGo (c :: cs) (some acc) = acc.reverse :: splitWsGo cs none from by
        simp [splitWsGo, hc]]
      simp only [List.takeWhile_cons, List.dropWhile_cons, hc]
      simp [splitWs, splitWsGo, hc]
    · rw [show splitWsGo (c :: cs) (some acc) = splitWsGo cs (some (c :: acc)) from by
        simp [splitWsGo, hc]]
      rw [ih (c :: acc)]
      simp only [List.takeWhile_cons, List.dropWhile_cons, hc]
      simp

theorem splitWs_cons_ws {c : Char} (hc : isWs c = true) (cs : List Char) :
    splitWs (c :: cs) = splitWs cs := by
  simp [splitWs, splitWsGo, hc]

theorem splitWs_cons_not_ws {c : Char} (hc : isWs c = false) (cs : List Char) :
    splitWs (c :: cs) =
      (c :: cs.takeWhile (fun d => !isWs d)) ::
        splitWs (cs.dropWhile (fun d => !isWs d)) := by
  rw [show splitWs (c :: cs) = splitWsGo cs (some [c]) from by simp [splitWs, splitWsGo, hc]]
  rw [splitWsGo_some]
  simp

theorem splitWs_eq_nil_iff (cs : List Char) :
    splitWs cs = [] ↔ ∀ c ∈ cs, isWs c = true := by
  induction cs with
  | nil => simp [splitWs, splitWsGo]
  | cons c cs ih =>
    by_cases hc : isWs c
    · rw [splitWs_cons_ws hc]
      simp [hc, ih]
    · rw [splitWs_cons_not_ws (by simpa using hc)]
      simp [hc]

theorem splitWs_ws_append (u : List Char) (hu : ∀ c ∈ u, isWs c = true)
    (v : List Char) : splitWs (u ++ v) = splitWs v := by
  induction u with
  | nil => rfl
  | cons c u ih =>
    rw [List.cons_append, splitWs_cons_ws (hu c (by simp))]
    exact ih (fun d hd => hu d (by simp [hd]))

theorem takeWhile_all_append (p : Char → Bool) (xs : List Char)
    (hxs : ∀ c ∈ xs, p c = true) (rest : List Char)
    (hrest : ∀ r rs, rest = r :: rs → p r = false) :
    (xs ++ rest).takeWhile p = xs ∧ (xs ++ rest).dropWhile p = rest := by
  induction xs with
  | nil =>
    cases rest with
    | nil => simp
    | cons r rs =>
      have := hrest r rs rfl
      simp [List.takeWhile_cons, List.dropWhile_cons, this]
  | cons x xs ih =>
    have hx := hxs x (by simp)
    have ⟨h1, h2⟩ := ih (fun c hc => hxs c (by simp [hc]))
    simp [List.takeWhile_cons, List.dropWhile_cons, hx, h1, h2]

theorem splitWs_token_append (tok : List Char) (htok : tok ≠ [])
    (hnw : ∀ c ∈ tok, isWs c = false) (rest : List Char)
    (hrest : ∀ r rs, rest = r :: rs → isWs r = true) :
    splitWs (tok ++ rest) = tok :: splitWs rest := by
  cases tok with
  | nil => exact absurd rfl htok
  | cons d tok' =>
    rw [List.cons_append, splitWs_cons_not_ws (hnw d (by simp))]
    have ⟨h1, h2⟩ := takeWhile_all_append (fun d => !isWs d) tok'
      (fun c hc => by simp [hnw c (by simp [hc])]) rest
      (fun r rs hr => by simp [hrest r rs hr])
    rw [h1, h2]

theorem endsNonWs_cons_cons (a b : Char) (l : List Char) :
    endsNonWs (a :: b :: l) = endsNonWs (b :: l) := by
  unfold endsNonWs
  rw [List.getLast?_cons_cons]

theorem endsNonWs_all_ws (u : List Char) (hu : ∀ c ∈ u, isWs c = true) :
    endsNonWs u = false := by
  induction u with
  | nil => rfl
  | cons c u ih =>
    cases u with
    | nil => simp [endsNonWs, hu c (by simp)]
    | cons d u' =>
      rw [endsNonWs_cons_cons]
      exact ih (fun x hx => hu x (by simp [hx]))

theorem endsNonWs_append (a b : List Char) (hb : b ≠ []) :
    endsNonWs (a ++ b) = endsNonWs b := by
  unfold endsNonWs
  rw [List.getLast?_append_of_ne_nil _ hb]

theorem endsNonWs_token (tok : List Char) (htok : tok ≠ [])
    (hnw : ∀ c ∈ tok, isWs c = false) : endsNonWs tok = true := by
  induction tok with
  | nil => exact absurd rfl htok
  | cons c u ih =>
    cases u with
    | nil => simp [endsNonWs, hnw c (by simp)]
    | cons d u' =>
      rw [endsNonWs_cons_cons]
      exact ih (by simp) (fun x hx => hnw x (by simp [hx]))

theorem offAfter_ws_append (u : List Char) (hu : ∀ c ∈ u, isWs c = true)
    (cs : List Char) (r : Nat) :
    offAfter (u ++ cs) false r = u.length + offAfter cs false r := by
  induction u with
  | nil => simp
  | cons c u ih =>
    rw [List.cons_append, show offAfter (c :: (u ++ cs)) false r =
        1 + offAfter (u ++ cs) false r from by simp [offAfter, hu c (by simp)]]
    rw [ih (fun x hx => hu x (by simp [hx]))]
    simp only [List.length_cons]
    omega

theorem offAfter_tok_append (tok : List Char) (hnw : ∀ c ∈ tok, isWs c = false)
    (cs : List Char) (r : Nat) :
    offAfter (tok ++ cs) true r = tok.length + offAfter cs true r := by
  induction tok with
  | nil => simp
  | cons c u ih =>
    rw [List.cons_append, show offAfter (c :: (u ++ cs)) true r =
        1 + offAfter (u ++ cs) true r from by simp [offAfter, hnw c (by simp)]]
    rw [ih (fun x hx => hnw x (by simp [hx]))]
    simp only [List.length_cons]
    omega

theorem offAfter_enter_tok (c : Char) (hc : isWs c = false) (cs : List Char)
    (flag : Bool) (r : Nat) :
    offAfter (c :: cs) flag r = 1 + offAfter cs true r := by
  simp [offAfter, hc]

theorem offAfter_boundary (w : Char) (hw : isWs w = true) (cs : List Char)
    (r : Nat) :
    offAfter (w :: cs) true r =
      if r ≤ 1 then 0 else 1 + offAfter cs false (r - 1) := by
  simp [offAfter, hw]

theorem pureGo_nil_true (n i count : Nat) :
    pureGo n [] i true count =
      if 0 < count then Except.error () else Except.ok none := by
  simp [pureGo]

theorem pureGo_nil_false (n i count : Nat) :
    pureGo n [] i false count =
      if count = n - 1 then Except.ok (some i)
      else if 0 < count then Except.error () else Except.ok none := by
  by_cases h : count = n - 1 <;> simp [pureGo, h]

theorem pureGo_ws_skip (n : Nat) (c : Char) (hc : isWs c = true)
    (cs : List Char) (i count : Nat) (hcount : count < n) :
    pureGo n (c :: cs) i true count = pureGo n cs (i + 1) true count := by
  simp [pureGo, hc, Nat.ne_of_lt hcount]

theorem pureGo_tok_enter (n : Nat) (c : Char) (hc : isWs c = false)
    (cs : List Char) (i count : Nat) (hcount : count < n) :
    pureGo n (c :: cs) i true count = pureGo n cs (i + 1) false count := by
  simp [pureGo, hc, Nat.ne_of_lt hcount]

theorem pureGo_tok_cont (n : Nat) (c : Char) (hc : isWs c = false)
    (cs : List Char) (i count : Nat) (hcount : count < n) :
    pureGo n (c :: cs) i false count = pureGo n cs (i + 1) false count := by
  simp [pureGo, hc, Nat.ne_of_lt hcount]

theorem pureGo_boundary (n : Nat) (w : Char) (hw : isWs w = true)
    (cs : List Char) (i count : Nat) :
    pureGo n (w :: cs) i false count =
      if count + 1 = n then Except.ok (some i)
      else pureGo n cs (i + 1) true (count + 1) := by
  by_cases h : count + 1 = n <;> simp [pureGo, hw, h]

theorem pureGo_ws_append (n : Nat) (u : List Char) (hu : ∀ c ∈ u, isWs c = true)
    (cs : List Char) (i count : Nat) (hcount : count < n) :
    pureGo n (u ++ cs) i true count = pureGo n cs (i + u.length) true count := by
  induction u generalizing i with
  | nil => simp
  | cons c u ih =>
    rw [List.cons_append, pureGo_ws_skip n c (hu c (by simp)) _ _ _ hcount]
    rw [ih (fun x hx => hu x (by simp [hx])) (i + 1)]
    congr 1
    simp only [List.length_cons]
    omega

theorem pureGo_tok_append (n : Nat) (tok : List Char)
    (hnw : ∀ c ∈ tok, isWs c = false) (cs : List Char) (i count : Nat)
    (hcount : count < n) :
    pureGo n (tok ++ cs) i false count =
      pureGo n cs (i + tok.length) false count := by
  induction tok generalizing i with
  | nil => simp
  | cons c u ih =>
    rw [List.cons_append, pureGo_tok_cont n c (hnw c (by simp)) _ _ _ hcount]
    rw [ih (fun x hx => hnw x (by simp [hx])) (i + 1)]
    congr 1
    simp only [List.length_cons]
    omega

theorem pureGo_tok_append_true (n : Nat) (tok : List Char) (htok : tok ≠ [])
    (hnw : ∀ c ∈ tok, isWs c = false) (cs : List Char) (i count : Nat)
    (hcount : count < n) :
    pureGo n (tok ++ cs) i true count =
      pureGo n cs (i + tok.length) false count := by
  cases tok with
  | nil => exact absurd rfl htok
  | cons c u =>
    rw [List.cons_append, pureGo_tok_enter n c (hnw c (by simp)) _ _ _ hcount]
    rw [pureGo_tok_append n u (fun x hx => hnw x (by simp [hx])) cs (i + 1) count hcount]
    congr 1
    simp only [List.length_cons]
    omega

theorem pureGo_head_not_ws (n : Nat) (c : Char) (hc : isWs c = false)
    (cs : List Char) (i count : Nat) (hcount : count < n) :
    pureGo n (c :: cs) i false count = pureGo n (c :: cs) i true count := by
  rw [pureGo_tok_cont n c hc cs i count hcount,
    pureGo_tok_enter n c hc cs i count hcount]

theorem dropWhile_head_false (p : Char → Bool) (l : List Char) :
    ∀ a as, l.dropWhile p = a :: as → p a = false := by
  induction l with
  | nil => intro a as h; exact absurd h (by simp)
  | cons c cs ih =>
    intro a as h
    rw [List.dropWhile_cons] at h
    by_cases hp : p c
    · rw [if_pos hp] at h
      exact ih a as h
    · rw [if_neg hp] at h
      injection h with h1 h2
      subst h1
      simpa using hp

theorem offAfter_utok (u : List Char) (hu : ∀ c ∈ u, isWs c = true)
    (tok : List Char) (htok : tok ≠ []) (hnw : ∀ c ∈ tok, isWs c = false)
    (rest : List Char) (r : Nat) :
    offAfter (u ++ (tok ++ rest)) false r =
      u.length + tok.length + offAfter rest true r := by
  rw [offAfter_ws_append u hu]
  cases tok with
  | nil => exact absurd rfl htok
  | cons d tok' =>
    rw [List.cons_append, offAfter_enter_tok d (hnw d (by simp)),
      offAfter_tok_append tok' (fun x hx => hnw x (by simp [hx]))]
    simp only [List.length_cons]
    omega

/-- The characterization of the pure scan: starting in whitespace with
`count < n` boundaries already seen, the scan returns the offset just past
the `(n - count)`-th token of the remaining text when that many tokens exist,
an error when the remaining boundaries run out with at least one boundary
counted in total, and a clean end of stream otherwise. -/
theorem pureGo_spec (n : Nat) (hn : 1 ≤ n) :
    ∀ (len : Nat) (cs : List Char), cs.length ≤ len → ∀ (i count : Nat),
      count < n →
      pureGo n cs i true count =
        (if n ≤ count + (splitWs cs).length then
          Except.ok (some (i + offAfter cs false (n - count)))
        else if 0 < count + (splitWs cs).length -
            (if endsNonWs cs then 1 else 0) then
          Except.error ()
        else Except.ok none) := by
  intro len
  induction len with
  | zero =>
    intro cs hcs i count hcount
    have hnil : cs = [] := List.length_eq_zero.mp (Nat.le_zero.mp hcs)
    subst hnil
    rw [pureGo_nil_true]
    rw [show splitWs [] = [] from rfl, show endsNonWs [] = false from rfl]
    simp only [List.length_nil, Nat.add_zero, if_false, Nat.sub_zero]
    rw [if_neg (show ¬ n ≤ count from by omega)]
    simp
  | succ m ih =>
    intro cs hcs i count hcount
    have hcs_eq : cs = cs.takeWhile isWs ++ cs.dropWhile isWs :=
      (List.takeWhile_append_dropWhile isWs cs).symm
    have hu_ws : ∀ c ∈ cs.takeWhile isWs, isWs c = true :=
      fun c hc => List.mem_takeWhile_imp hc
    cases hv : cs.dropWhile isWs with
    | nil =>
      rw [hv, List.append_nil] at hcs_eq
      have hall : ∀ c ∈ cs, isWs c = true := by
        intro c hc
        rw [hcs_eq] at hc
        exact hu_ws c hc
      have hred : pureGo n cs i true count =
          pureGo n [] (i + cs.length) true count := by
        have h := pureGo_ws_append n cs hall [] i count hcount
        rwa [List.append_nil] at h
      rw [hred, pureGo_nil_true]
      rw [(splitWs_eq_nil_iff cs).mpr hall, endsNonWs_all_ws cs hall]
      simp only [List.length_nil, Nat.add_zero, if_false, Nat.sub_zero]
      rw [if_neg (show ¬ n ≤ count from by omega)]
      simp
    | cons d v' =>
      have hd : isWs d = false := dropWhile_head_false isWs cs d v' hv
      have hv_eq : (d :: v') =
          (d :: v').takeWhile (fun x => !isWs x) ++
            (d :: v').dropWhile (fun x => !isWs x) :=
        (List.takeWhile_append_dropWhile (fun x => !isWs x) (d :: v')).symm
      have hdecomp : ∃ u tok rest, (∀ c ∈ u, isWs c = true) ∧ tok ≠ [] ∧
          (∀ c ∈ tok, isWs c = false) ∧
          (∀ r rs, rest = r :: rs → isWs r = true) ∧
          cs = u ++ (tok ++ rest) := by
        refine ⟨cs.takeWhile isWs, (d :: v').takeWhile (fun x => !isWs x),
          (d :: v').dropWhile (fun x => !isWs x), hu_ws, ?_, ?_, ?_, ?_⟩
        · simp [List.takeWhile_cons, hd]
        · intro c hc
          simpa using List.mem_takeWhile_imp hc
        · intro r rs h
          simpa using dropWhile_head_false (fun x => !isWs x) (d :: v') r rs h
        · conv =>
            lhs
            rw [hcs_eq, hv, hv_eq]
      obtain ⟨u, tok, rest, huw, htne, htnw, hrh, rfl⟩ := hdecomp
      have hsplit : splitWs (u ++ (tok ++ rest)) = tok :: splitWs rest := by
        rw [splitWs_ws_append u huw, splitWs_token_append tok htne htnw rest hrh]
      have htok_len : 1 ≤ tok.length := by
        cases tok with
        | nil => exact absurd rfl htne
        | cons x xs => simp
      have hlen : u.length + tok.length + rest.length ≤ m + 1 := by
        simp only [List.length_append] at hcs
        omega
      rw [pureGo_ws_append n u huw _ i count hcount,
        pureGo_tok_append_true n tok htne htnw rest _ count hcount]
      cases rest with
      | nil =>
        rw [pureGo_nil_false]
        have hsw : splitWs (u ++ (tok ++ [])) = [tok] := by
          rw [hsplit]
          rfl
        have hew : endsNonWs (u ++ (tok ++ [])) = true := by
          rw [List.append_nil, endsNonWs_append u tok htne]
          exact endsNonWs_token tok htne htnw
        rw [hsw, hew]
        simp only [List.length_singleton, if_true]
        by_cases hc1 : count = n - 1
        · rw [if_pos hc1, if_pos (show n ≤ count + 1 from by omega)]
          have hnc : n - count = 1 := by omega
          rw [hnc]
          have hoff : offAfter (u ++ (tok ++ [])) false 1 =
              u.length + tok.length := by
            rw [offAfter_utok u huw tok htne htnw [] 1]
            simp [offAfter]
          rw [hoff]
          congr 2
          omega
        · rw [if_neg hc1, if_neg (show ¬ n ≤ count + 1 from by omega)]
          simp
      | cons w rest' =>
        have hw : isWs w = true := hrh w rest' rfl
        rw [pureGo_boundary n w hw rest' _ count]
        have hsw2 : splitWs (w :: rest') = splitWs rest' := splitWs_cons_ws hw rest'
        have hend : endsNonWs (u ++ (tok ++ w :: rest')) = endsNonWs rest' := by
          cases rest' with
          | nil =>
            rw [endsNonWs_append _ _ (by simp)]
            rw [endsNonWs_append _ _ (by simp)]
            simp [endsNonWs, hw]
          | cons x xs =>
            rw [endsNonWs_append _ _ (by simp)]
            rw [endsNonWs_append _ _ (by simp)]
            rw [endsNonWs_cons_cons]
        rw [hsplit, hsw2, hend]
        simp only [List.length_cons]
        by_cases hcn : count + 1 = n
        · rw [if_pos hcn]
          rw [if_pos (show n ≤ count + ((splitWs rest').length + 1) from by omega)]
          have hnc : n - count = 1 := by omega
          rw [hnc]
          have hoff : offAfter (u ++ (tok ++ w :: rest')) false 1 =
              u.length + tok.length := by
            rw [offAfter_utok u huw tok htne htnw (w :: rest') 1]
            rw [offAfter_boundary w hw rest' 1]
            simp
          rw [hoff]
          congr 2
          omega
        · rw [if_neg hcn]
          have hrest_len : rest'.length ≤ m := by
            simp only [List.length_cons] at hlen
            omega
          rw [ih rest' hrest_len _ (count + 1) (by omega)]
          have hcnt_eq : (count + 1) + (splitWs rest').length =
              count + ((splitWs rest').length + 1) := by omega
          simp only [hcnt_eq]
          by_cases hle : n ≤ count + ((splitWs rest').length + 1)
          · rw [if_pos hle, if_pos hle]
            have hoff : offAfter (u ++ (tok ++ w :: rest')) false (n - count) =
                u.length + tok.length + 1 +
                  offAfter rest' false (n - (count + 1)) := by
              rw [offAfter_utok u huw tok htne htnw (w :: rest') (n - count)]
              rw [offAfter_boundary w hw rest' (n - count)]
              rw [if_neg (show ¬ n - count ≤ 1 from by omega)]
              have hsub : n - count - 1 = n - (count + 1) := by omega
              rw [hsub]
              omega
            rw [hoff]
            congr 2
            omega
          · rw [if_neg hle, if_neg hle]


theorem ws_of_numish (c : Char) (h : numish c = true) : isWs c = false := by
  have h' : isDigitC c = true ∨ c = '-' ∨ c = '.' := by
    simpa [numish, or_assoc] using h
  rcases h' with hd | rfl | rfl
  · cases hw : isWs c
    · rfl
    · exfalso
      simp only [isDigitC, Bool.and_eq_true, decide_eq_true_eq] at hd
      simp only [isWs, Bool.or_eq_true, beq_iff_eq, Bool.and_eq_true,
        decide_eq_true_eq] at hw
      omega
  · decide
  · decide

theorem fnntGo_started (n : Nat) (cs : List Char) :
    ∀ i inWs count, fnntGo n cs i true inWs count = pureGo n cs i inWs count := by
  induction cs with
  | nil => intro i inWs count; rfl
  | cons c cs ih =>
    intro i inWs count
    by_cases h1 : (!inWs && isWs c) = true <;>
      by_cases h2 : (inWs && !isWs c) = true <;>
        simp [fnntGo, pureGo, h1, h2, ih]

theorem fnntGo_no_numish (n : Nat) (cs : List Char)
    (h : ∀ c ∈ cs, numish c = false) :
    ∀ i inWs count, fnntGo n cs i false inWs count = pureGo n cs i inWs count := by
  induction cs with
  | nil => intro i inWs count; rfl
  | cons c cs ih =>
    intro i inWs count
    have hc : numish c = false := h c (by simp)
    have ihtail := ih (fun x hx => h x (by simp [hx]))
    by_cases h1 : (!inWs && isWs c) = true <;>
      by_cases h2 : (inWs && !isWs c) = true <;>
        simp [fnntGo, pureGo, h1, h2, hc, ihtail]

theorem find_eq_pure (src : List Char) (n : Nat) (hn : 1 ≤ n)
    (hq : (∀ c ∈ src, numish c = false) ∨
      ∃ c cs', src = c :: cs' ∧ numish c = true)
    (hne : trimC src ≠ []) :
    find_next_n_tokens src n = pureGo n src 0 true 0 := by
  unfold find_next_n_tokens
  rw [if_neg hne]
  rcases hq with hno | ⟨c, cs, rfl, hnum⟩
  · cases hsrc : src with
    | nil =>
      exact absurd (by simp [trimC, hsrc]) hne
    | cons c cs =>
      dsimp only
      rw [hsrc] at hno
      rw [fnntGo_no_numish n (c :: cs) hno]
      cases hc : isWs c
      · exact pureGo_head_not_ws n c hc cs 0 0 (by omega)
      · rfl
  · dsimp only
    have hws : isWs c = false := ws_of_numish c hnum
    rw [show fnntGo n (c :: cs) 0 false (isWs c) 0 =
        fnntGo n cs 1 true (isWs c) 0 from by
      simp [fnntGo, hnum, Nat.ne_of_lt (by omega : 0 < n)]]
    rw [hws, fnntGo_started n cs 1 false 0,
      pureGo_tok_enter n c hws cs 0 0 (by omega)]

/-- **C5 counterexample.**  The text `"5"` holds a single token (a partial
group for `n = 2`) that runs out at end-of-text, yet `find_next_n_tokens`
returns `Ok(None)` — the clean-end-of-stream value — instead of the error the
claim requires for a partial group. -/
theorem find_next_n_tokens_cex :
    find_next_n_tokens "5".data 2 = Except.ok none ∧
      (splitWs "5".data).length = 1 ∧ trimC "5".data ≠ [] := by
  refine ⟨by decide, by decide, by decide⟩

/-- **C5 (amended).**  For `n ≥ 1` and any text in which the first
numeric/minus/dot character, if any, is the text's first character (the
scanner's `started` flag otherwise swallows one token boundary):
`find_next_n_tokens` returns `Ok(None)` on an all-whitespace text; returns
`Ok(Some o)`, `o` the offset just past the `n`-th token (which is
`text.len()` in the edge case where the `n`-th token runs to end-of-text),
whenever the text holds at least `n` tokens; returns `Ok(None)` — not an
error — when the text consists of exactly one token with no trailing
whitespace and `n ≥ 2`; and returns the token-count error on every other
partial group (fewer than `n` tokens). -/
theorem find_next_n_tokens_spec (src : List Char) (n : Nat) (hn : 1 ≤ n)
    (hq : (∀ c ∈ src, numish c = false) ∨
      ∃ c cs', src = c :: cs' ∧ numish c = true) :
    find_next_n_tokens src n =
      (if splitWs src = [] then Except.ok none
       else if n ≤ (splitWs src).length then
         Except.ok (some (offAfter src false n))
       else if (splitWs src).length = 1 ∧ endsNonWs src = true then
         Except.ok none
       else Except.error ()) := by
  by_cases hws : trimC src = []
  · unfold find_next_n_tokens
    rw [if_pos hws,
      if_pos ((splitWs_eq_nil_iff src).mpr ((trimC_eq_nil_iff src).mp hws))]
  · rw [find_eq_pure src n hn hq hws]
    rw [pureGo_spec n hn src.length src le_rfl 0 0 (by omega)]
    simp only [Nat.zero_add, Nat.sub_zero]
    have hne : splitWs src ≠ [] := by
      intro h
      exact hws ((trimC_eq_nil_iff src).mpr ((splitWs_eq_nil_iff src).mp h))
    rw [if_neg hne]
    have ht1 : 1 ≤ (splitWs src).length :=
      Nat.one_le_iff_ne_zero.mpr (fun h => hne (List.length_eq_zero.mp h))
    by_cases hle : n ≤ (splitWs src).length
    · rw [if_pos hle, if_pos hle]
    · rw [if_neg hle, if_neg hle]
      by_cases he : endsNonWs src = true
      · simp only [he, if_true, and_true]
        by_cases h1 : (splitWs src).length = 1
        · rw [if_neg (show ¬ 0 < (splitWs src).length - 1 from by omega),
            if_pos h1]
        · rw [if_pos (show 0 < (splitWs src).length - 1 from by omega),
            if_neg h1]
      · simp only [he, if_false, and_false]
        rw [show (if (false = true) then 1 else 0) = 0 from rfl]
        rw [if_pos (show 0 < (splitWs src).length - 0 from by omega)]
        rw [if_neg (show ¬((splitWs src).length = 1 ∧ false = true) from by simp)]

/-- Closed instance of `find_next_n_tokens_spec`: on `"5 6 7"` with `n = 2`
the scanner stops just past the second token. -/
theorem find_next_n_tokens_spec_witness :
    find_next_n_tokens "5 6 7".data 2 = Except.ok (some 3) :=
  (find_next_n_tokens_spec "5 6 7".data 2 (by omega)
    (Or.inr ⟨'5', " 6 7".data, by decide, by decide⟩)).trans (by decide)

/-! ## Claim C4: the surface iterator's skip-and-terminate behaviour -/

theorem fnntGo_some_ge (n : Nat) (cs : List Char) :
    ∀ i s w cnt j, fnntGo n cs i s w cnt = Except.ok (some j) → i ≤ j := by
  induction cs with
  | nil =>
    intro i s w cnt j h
    unfold fnntGo at h
    split_ifs at h <;> simp_all
  | cons c cs ih =>
    intro i s w cnt j h
    unfold fnntGo at h
    split_ifs at h <;>
      (dsimp only at h
       split at h <;>
         first
           | (simp only [Except.ok.injEq, Option.some.injEq] at h; omega)
           | (have h9 := ih (i + 1) _ _ _ j h; omega))

theorem find_next_n_tokens_progress (src : List Char) (n : Nat) (hn : 1 ≤ n)
    (brk : Nat) (h : find_next_n_tokens src n = Except.ok (some brk)) :
    1 ≤ brk ∧ (src.drop brk).length < src.length := by
  unfold find_next_n_tokens at h
  by_cases ht : trimC src = []
  · rw [if_pos ht] at h
    exact absurd h (by simp)
  · rw [if_neg ht] at h
    rcases src with - | ⟨c, cs⟩
    · exact absurd rfl ht
    · dsimp only at h
      have hstep : ∃ s w, fnntGo n (c :: cs) 0 false (isWs c) 0 =
          fnntGo n cs 1 s w 0 := by
        by_cases hnum : numish c = true
        · exact ⟨true, isWs c, by
            simp [fnntGo, hnum, Nat.ne_of_lt (show 0 < n from hn)]⟩
        · by_cases hw : isWs c = true
          · exact ⟨false, true, by
              simp [fnntGo, hnum, hw, Nat.ne_of_lt (show 0 < n from hn)]⟩
          · exact ⟨false, false, by
              simp [fnntGo, hnum, hw, Nat.ne_of_lt (show 0 < n from hn)]⟩
      obtain ⟨s, w, hstep⟩ := hstep
      rw [hstep] at h
      have hge := fnntGo_some_ge n cs 1 s w 0 brk h
      refine ⟨by omega, ?_⟩
      rw [List.length_drop]
      simp only [List.length_cons]
      omega

theorem surfaceIterNextFuel_inv {α : Type} (decode : List Char → Option α)
    (n : Nat) (hn : 1 ≤ n) :
    ∀ f1 f2 (r : List Char), r.length < f1 → r.length < f2 →
      surfaceIterNextFuel decode n f1 r = surfaceIterNextFuel decode n f2 r := by
  intro f1
  induction f1 with
  | zero => intro f2 r h1 h2; omega
  | succ f1 ih =>
    intro f2 r h1 h2
    cases f2 with
    | zero => omega
    | succ f2 =>
      cases hf : find_next_n_tokens r n with
      | error e =>
        cases e
        simp [surfaceIterNextFuel, hf]
      | ok o =>
        cases o with
        | none => simp [surfaceIterNextFuel, hf]
        | some brk =>
          have hprog := find_next_n_tokens_progress r n hn brk hf
          simp only [surfaceIterNextFuel, hf]
          cases hd : decode (r.take brk) with
          | some sd => rfl
          | none => exact ih f2 (r.drop brk) (by omega) (by omega)

theorem chunksFuel_inv (n : Nat) (hn : 1 ≤ n) :
    ∀ f1 f2 (r : List Char), r.length < f1 → r.length < f2 →
      chunksFuel n f1 r = chunksFuel n f2 r := by
  intro f1
  induction f1 with
  | zero => intro f2 r h1 h2; omega
  | succ f1 ih =>
    intro f2 r h1 h2
    cases f2 with
    | zero => omega
    | succ f2 =>
      cases hf : find_next_n_tokens r n with
      | error e =>
        cases e
        simp [chunksFuel, hf]
      | ok o =>
        cases o with
        | none => simp [chunksFuel, hf]
        | some brk =>
          have hprog := find_next_n_tokens_progress r n hn brk hf
          simp only [chunksFuel, hf]
          rw [ih f2 (r.drop brk) (by omega) (by omega)]

theorem surfaceIterNext_firstDecodable {α : Type} (decode : List Char → Option α)
    (n : Nat) (hn : 1 ≤ n) :
    ∀ len (r : List Char), r.length ≤ len →
      (surfaceIterNext decode n r).map Prod.fst =
        (chunkList n r).findSome? decode := by
  intro len
  induction len with
  | zero =>
    intro r hr
    have : r = [] := List.length_eq_zero.mp (Nat.le_zero.mp hr)
    subst this
    rfl
  | succ len ih =>
    intro r hr
    unfold surfaceIterNext chunkList
    cases hf : find_next_n_tokens r n with
    | error e =>
      cases e
      simp [surfaceIterNextFuel, chunksFuel, hf]
    | ok o =>
      cases o with
      | none => simp [surfaceIterNextFuel, chunksFuel, hf]
      | some brk =>
        have hprog := find_next_n_tokens_progress r n hn brk hf
        simp only [surfaceIterNextFuel, chunksFuel, hf]
        cases hd : decode (r.take brk) with
        | some sd => simp [List.findSome?_cons, hd]
        | none =>
          rw [List.findSome?_cons]
          rw [hd]
          rw [surfaceIterNextFuel_inv decode n hn r.length ((r.drop brk).length + 1)
            (r.drop brk) (by omega) (by omega)]
          rw [chunksFuel_inv n hn r.length ((r.drop brk).length + 1)
            (r.drop brk) (by omega) (by omega)]
          exact ih (r.drop brk) (by omega)

/-- **C4.** For every surface-section text, column count `n ≥ 1` and row
decoder: when `find_next_n_tokens` reports a clean end of stream (`Ok(None)`)
or a partial trailing group (`TokenCountError`), `SurfaceIterator::next`
terminates with `none` without propagating any error; when a chunk is carved
and decodes, it is yielded together with the remaining text; when a carved
chunk fails to decode, the iterator silently discards it and continues on the
remaining text — so the value it produces is the decode of the first carved
chunk that decodes successfully (a valid row after a malformed one is still
produced). -/
theorem surfaceIterNext_spec {α : Type} (decode : List Char → Option α)
    (n : Nat) (hn : 1 ≤ n) (remaining : List Char) :
    (find_next_n_tokens remaining n = Except.error () →
      surfaceIterNext decode n remaining = none) ∧
    (find_next_n_tokens remaining n = Except.ok none →
      surfaceIterNext decode n remaining = none) ∧
    (∀ brk, find_next_n_tokens remaining n = Except.ok (some brk) →
      (∀ sd, decode (remaining.take brk) = some sd →
        surfaceIterNext decode n remaining = some (sd, remaining.drop brk)) ∧
      (decode (remaining.take brk) = none →
        surfaceIterNext decode n remaining =
          surfaceIterNext decode n (remaining.drop brk))) ∧
    (surfaceIterNext decode n remaining).map Prod.fst =
      (chunkList n remaining).findSome? decode := by
  refine ⟨?_, ?_, ?_, ?_⟩
  · intro hf
    simp [surfaceIterNext, surfaceIterNextFuel, hf]
  · intro hf
    simp [surfaceIterNext, surfaceIterNextFuel, hf]
  · intro brk hf
    have hprog := find_next_n_tokens_progress remaining n hn brk hf
    constructor
    · intro sd hd
      simp [surfaceIterNext, surfaceIterNextFuel, hf, hd]
    · intro hd
      unfold surfaceIterNext
      simp only [surfaceIterNextFuel, hf, hd]
      exact surfaceIterNextFuel_inv decode n hn remaining.length
        ((remaining.drop brk).length + 1) (remaining.drop brk)
        (by omega) (by omega)
  · exact surfaceIterNext_firstDecodable decode n hn remaining.length remaining le_rfl

/-- Closed instance of `surfaceIterNext_spec`: the malformed first chunk
`"1 x"` is skipped and iteration continues on the rest of the text. -/
theorem surfaceIterNext_spec_witness :
    surfaceIterNext (fun ch => if 'x' ∈ ch then none else some ch.length) 2
        "1 x 3 4".data =
      surfaceIterNext (fun ch => if 'x' ∈ ch then none else some ch.length) 2
        ("1 x 3 4".data.drop 3) :=
  ((surfaceIterNext_spec (fun ch => if 'x' ∈ ch then none else some ch.length) 2
    (by omega) "1 x 3 4".data).2.2.1 3 (by decide)).2 (by decide)

/-! ## Claim C8: the `YYMMDD/HHMM` datetime parser -/

/-- **C8 counterexample.**  `"170401X0000"` has the wrong separator at
position 6 and is accepted (the separator byte is never examined), and the
too-short digit string `"17"` panics on slicing instead of returning an
error — refuting "accepts exactly `YYMMDD/HHMM` and returns an error, rather
than succeeding or panicking, on any other shape". -/
theorem parse_ndt_cex :
    parse_naive_date_time "170401X0000".data = RRes.ok ⟨2017, 4, 1, 0, 0, 0⟩ ∧
    parse_naive_date_time "17".data = RRes.panic := by
  decide

/-- **C8 (amended).** The parser succeeds exactly on inputs whose trimmed form
has length at least 11 and whose character ranges `[0,2)`, `[2,4)`, `[4,6)`,
`[7,9)`, `[9,11)` parse as integer fields forming a valid calendar date and
time of day (two-digit year interpreted as year + 2000, seconds set to zero);
the character at position 6 and any characters beyond position 11 are not
constrained.  On any other input it does not succeed (it returns an error
when a complete two-character field fails integer parsing, and panics on
too-short inputs or out-of-range field values). -/
theorem parse_ndt_ok_iff (src : List Char) (dy : Int) (dmo dd dh dmi ds : Nat) :
    parse_naive_date_time src = RRes.ok ⟨dy, dmo, dd, dh, dmi, ds⟩ ↔
      (11 ≤ (trimC src).length ∧
       (∃ yv, parseI32v ((trimC src).take 2) = some yv ∧ dy = yv + 2000) ∧
       parseU32 (((trimC src).drop 2).take 2) = some dmo ∧
       parseU32 (((trimC src).drop 4).take 2) = some dd ∧
       parseU32 (((trimC src).drop 7).take 2) = some dh ∧
       parseU32 (((trimC src).drop 9).take 2) = some dmi ∧
       validYMD dy dmo dd = true ∧
       dh ≤ 23 ∧ dmi ≤ 59 ∧ ds = 0) := by
  unfold parse_naive_date_time
  by_cases h2 : 2 ≤ (trimC src).length
  case neg =>
    rw [if_neg h2]
    simp only [reduceCtorEq, false_iff]
    rintro ⟨hlen, -⟩
    omega
  rw [if_pos h2]
  cases hy : parseI32v ((trimC src).take 2) with
  | none =>
    simp only [reduceCtorEq, false_iff]
    rintro ⟨-, ⟨yv, hyv, -⟩, -⟩
    simp at hyv
  | some yv =>
  dsimp only
  by_cases h4 : 4 ≤ (trimC src).length
  case neg =>
    rw [if_neg h4]
    simp only [reduceCtorEq, false_iff]
    rintro ⟨hlen, -⟩
    omega
  rw [if_pos h4]
  cases hmo : parseU32 (((trimC src).drop 2).take 2) with
  | none =>
    simp only [reduceCtorEq, false_iff]
    rintro ⟨-, -, hmo', -⟩
    simp at hmo'
  | some month =>
  dsimp only
  by_cases h6 : 6 ≤ (trimC src).length
  case neg =>
    rw [if_neg h6]
    simp only [reduceCtorEq, false_iff]
    rintro ⟨hlen, -⟩
    omega
  rw [if_pos h6]
  cases hd : parseU32 (((trimC src).drop 4).take 2) with
  | none =>
    simp only [reduceCtorEq, false_iff]
    rintro ⟨-, -, -, hd', -⟩
    simp at hd'
  | some day =>
  dsimp only
  by_cases h9 : 9 ≤ (trimC src).length
  case neg =>
    rw [if_neg h9]
    simp only [reduceCtorEq, false_iff]
    rintro ⟨hlen, -⟩
    omega
  rw [if_pos h9]
  cases hh : parseU32 (((trimC src).drop 7).take 2) with
  | none =>
    simp only [reduceCtorEq, false_iff]
    rintro ⟨-, -, -, -, hh', -⟩
    simp at hh'
  | some hour =>
  dsimp only
  by_cases h11 : 11 ≤ (trimC src).length
  case neg =>
    rw [if_neg h11]
    simp only [reduceCtorEq, false_iff]
    rintro ⟨hlen, -⟩
    omega
  rw [if_pos h11]
  cases hmi : parseU32 (((trimC src).drop 9).take 2) with
  | none =>
    simp only [reduceCtorEq, false_iff]
    rintro ⟨-, -, -, -, -, hmi', -⟩
    simp at hmi'
  | some minute =>
  dsimp only
  by_cases hv : validYMD (yv + 2000) month day = true
  case neg =>
    rw [if_neg hv]
    simp only [reduceCtorEq, false_iff]
    rintro ⟨-, ⟨yv', hyv', hdy⟩, hmo', hd', -, -, hvd, -⟩
    obtain rfl : yv = yv' := by simpa using hyv'
    obtain rfl : month = dmo := by simpa using hmo'
    obtain rfl : day = dd := by simpa using hd'
    rw [hdy] at hvd
    exact hv hvd
  rw [if_pos hv]
  by_cases hhm : hour ≤ 23 ∧ minute ≤ 59
  case neg =>
    rw [if_neg hhm]
    simp only [reduceCtorEq, false_iff]
    rintro ⟨-, -, -, -, hh', hmi', -, hle1, hle2, -⟩
    obtain rfl : hour = dh := by simpa using hh'
    obtain rfl : minute = dmi := by simpa using hmi'
    exact hhm ⟨hle1, hle2⟩
  rw [if_pos hhm]
  simp only [RRes.ok.injEq, NDT.mk.injEq]
  constructor
  · rintro ⟨rfl, rfl, rfl, rfl, rfl, rfl⟩
    exact ⟨h11, ⟨yv, rfl, rfl⟩, rfl, rfl, rfl, rfl, hv, hhm.1, hhm.2, rfl⟩
  · rintro ⟨-, ⟨yv', hyv', hdy⟩, hmo', hd', hh', hmi', -, -, -, hds⟩
    obtain rfl : yv = yv' := by simpa using hyv'
    refine ⟨hdy.symm, by simpa using hmo', by simpa using hd',
      by simpa using hh', by simpa using hmi', hds.symm⟩

/-! ## Claim C7: mandatory and optional station-info keys -/

theorem findSubGo_some_occ (pat : List Char) :
    ∀ (cs : List Char) (i0 i : Nat), findSubGo pat cs i0 = some i →
      pat <:+: cs := by
  intro cs
  induction cs with
  | nil =>
    intro i0 i h
    unfold findSubGo at h
    by_cases hp : pat.isPrefixOf ([] : List Char)
    · exact List.IsPrefix.isInfix (( List.isPrefixOf_iff_prefix).mp hp)
    · rw [if_neg hp] at h
      exact absurd h (by simp)
  | cons c cs ih =>
    intro i0 i h
    unfold findSubGo at h
    by_cases hp : pat.isPrefixOf (c :: cs)
    · exact List.IsPrefix.isInfix (( List.isPrefixOf_iff_prefix).mp hp)
    · rw [if_neg hp] at h
      exact List.infix_cons (ih (i0 + 1) i h)

theorem findSub_isSome_of_occ (pat cs : List Char) (h : pat <:+: cs) :
    (findSub pat cs).isSome = true := by
  unfold findSub
  suffices hgen : ∀ (cs : List Char) (i0 : Nat), pat <:+: cs →
      (findSubGo pat cs i0).isSome = true from hgen cs 0 h
  intro cs
  induction cs with
  | nil =>
    intro i0 hinf
    have : pat = [] := List.eq_nil_of_infix_nil hinf
    subst this
    rfl
  | cons c cs ih =>
    intro i0 hinf
    unfold findSubGo
    by_cases hp : pat.isPrefixOf (c :: cs)
    · rw [if_pos hp]
      rfl
    · rw [if_neg hp]
      rcases hinf with ⟨s, t, hst⟩
      cases s with
      | nil =>
        exfalso
        apply hp
        rw [ List.isPrefixOf_iff_prefix]
        exact ⟨t, by simpa using hst⟩
      | cons x s' =>
        apply ih (i0 + 1)
        refine ⟨s', t, ?_⟩
        injection hst with h1 h2

theorem parse_kv_some (src key : List Char) (sp ep : Char → Bool)
    (v head : List Char) (h : parse_kv src key sp ep = some (v, head)) :
    key <:+: src ∧ head <:+ src := by
  unfold parse_kv at h
  cases hfs : findSub key src with
  | none => rw [hfs] at h; exact absurd h (by simp)
  | some idx =>
    rw [hfs] at h
    dsimp only at h
    have hinf : key <:+: src := findSubGo_some_occ key src 0 idx hfs
    cases hfi : (src.drop (idx + key.length)).findIdx? sp with
    | none => rw [hfi] at h; exact absurd h (by simp)
    | some j =>
      rw [hfi] at h
      dsimp only at h
      simp only [Option.some.injEq, Prod.mk.injEq] at h
      refine ⟨hinf, ?_⟩
      rw [← h.2]
      calc (((src.drop (idx + key.length)).drop j).drop _) <:+
          ((src.drop (idx + key.length)).drop j) := List.drop_suffix _ _
        _ <:+ (src.drop (idx + key.length)) := List.drop_suffix _ _
        _ <:+ src := List.drop_suffix _ _

theorem parse_f64_kv_some (src key : List Char) (q : Option ℚ)
    (head : List Char) (h : parse_f64_kv src key = some (q, head)) :
    key <:+: src ∧ head <:+ src := by
  unfold parse_f64_kv at h
  cases hkv : parse_kv src key (fun c => isDigitC c || c == '-')
      (fun c => !(isDigitC c || c == '.' || c == '-')) with
  | none => rw [hkv] at h; exact absurd h (by simp)
  | some p =>
    obtain ⟨v, hd⟩ := p
    rw [hkv] at h
    dsimp only at h
    cases hq : parseDecimal v with
    | none => rw [hq] at h; exact absurd h (by simp)
    | some q' =>
      rw [hq] at h
      dsimp only at h
      simp only [Option.some.injEq, Prod.mk.injEq] at h
      have := parse_kv_some src key _ _ v hd hkv
      exact ⟨this.1, h.2 ▸ this.2⟩

theorem parse_i32_kv_some (src key : List Char) (v : Int)
    (head : List Char) (h : parse_i32_kv src key = some (v, head)) :
    key <:+: src ∧ head <:+ src := by
  unfold parse_i32_kv at h
  cases hkv : parse_kv src key isDigitC (fun c => !isDigitC c) with
  | none => rw [hkv] at h; exact absurd h (by simp)
  | some p =>
    obtain ⟨val, hd⟩ := p
    rw [hkv] at h
    dsimp only at h
    cases hq : digitsVal val with
    | none => rw [hq] at h; exact absurd h (by simp)
    | some q' =>
      rw [hq] at h
      dsimp only at h
      simp only [Option.some.injEq, Prod.mk.injEq] at h
      have := parse_kv_some src key _ _ val hd hkv
      exact ⟨this.1, h.2 ▸ this.2⟩

theorem occ_trans_suffix {pat sub src : List Char}
    (h1 : pat <:+: sub) (h2 : sub <:+ src) : pat <:+: src :=
  h1.trans ( List.IsSuffix.isInfix h2)

/-- **C7 counterexample.**  A station-info preamble with `STNM`, `TIME` and
`STIM` all present but `SLAT`/`SLON`/`SELV` absent fails to decode — refuting
"SLAT, SLON, and SELV are each independently optional: their absence yields
an absent latitude/longitude/elevation without failing the decode". -/
theorem stationInfo_cex :
    stationInfoParse
        "STID = KMSO STNM = 727730 TIME = 170401/0000 STIM = 0".data =
      RRes.err ∧
    (findSub "STNM".data
        "STID = KMSO STNM = 727730 TIME = 170401/0000 STIM = 0".data).isSome
      = true ∧
    (findSub "TIME".data
        "STID = KMSO STNM = 727730 TIME = 170401/0000 STIM = 0".data).isSome
      = true ∧
    (findSub "STIM".data
        "STID = KMSO STNM = 727730 TIME = 170401/0000 STIM = 0".data).isSome
      = true := by
  refine ⟨by decide, by decide, by decide, by decide⟩

/-- **C7 (amended).** In `StationInfo::parse` none of the keys is optional by
absence: a successful decode requires every one of `STID`, `STNM`, `TIME`,
`SLAT`, `SLON`, `SELV` and `STIM` to be locatable in the preamble text (an
absent latitude/longitude/elevation can only arise from the `-9999` sentinel
value of a present key); if any of the seven keys cannot be located, the
decode fails. -/
theorem stationInfoParse_requires_keys (src : List Char)
    (h : (stationInfoParse src).isOk = true) :
    ("STID".data <:+: src) ∧ ("STNM".data <:+: src) ∧
    ("TIME".data <:+: src) ∧ ("SLAT".data <:+: src) ∧
    ("SLON".data <:+: src) ∧ ("SELV".data <:+: src) ∧
    ("STIM".data <:+: src) := by
  unfold stationInfoParse at h
  cases h1 : parse_kv src "STID".data isAlnum (fun c => !isAlnum c) with
  | none => rw [h1] at h; exact absurd h (by simp [RRes.isOk])
  | some p1 =>
  obtain ⟨sid, head0⟩ := p1
  rw [h1] at h
  dsimp only at h
  have hstid := parse_kv_some src _ _ _ sid head0 h1
  have hidh : (if sid = "STNM".data then
      ((none : Option (List Char)), src) else (some sid, head0)).2 <:+ src := by
    by_cases hs : sid = "STNM".data
    · rw [if_pos hs]
    · rw [if_neg hs]
      exact hstid.2
  cases h2 : parse_i32_kv (if sid = "STNM".data then
      ((none : Option (List Char)), src) else (some sid, head0)).2 "STNM".data with
  | none => rw [h2] at h; exact absurd h (by simp [RRes.isOk])
  | some p2 =>
  obtain ⟨snum, head2⟩ := p2
  rw [h2] at h
  dsimp only at h
  have hstnm := parse_i32_kv_some _ _ _ _ h2
  cases h3 : parse_kv head2 "TIME".data isDigitC
      (fun c => !(isDigitC c || c == '/')) with
  | none => rw [h3] at h; exact absurd h (by simp [RRes.isOk])
  | some p3 =>
  obtain ⟨tval, head3⟩ := p3
  rw [h3] at h
  dsimp only at h
  have htime := parse_kv_some head2 _ _ _ tval head3 h3
  cases h4 : parse_naive_date_time tval with
  | err => rw [h4] at h; exact absurd h (by simp [RRes.isOk])
  | panic => rw [h4] at h; exact absurd h (by simp [RRes.isOk])
  | ok vt =>
  rw [h4] at h
  dsimp only at h
  cases h5 : parse_f64_kv head3 "SLAT".data with
  | none => rw [h5] at h; exact absurd h (by simp [RRes.isOk])
  | some p5 =>
  obtain ⟨lat, head4⟩ := p5
  rw [h5] at h
  dsimp only at h
  have hslat := parse_f64_kv_some head3 _ _ _ h5
  cases h6 : parse_f64_kv head4 "SLON".data with
  | none => rw [h6] at h; exact absurd h (by simp [RRes.isOk])
  | some p6 =>
  obtain ⟨lon, head5⟩ := p6
  rw [h6] at h
  dsimp only at h
  have hslon := parse_f64_kv_some head4 _ _ _ h6
  cases h7 : parse_f64_kv head5 "SELV".data with
  | none => rw [h7] at h; exact absurd h (by simp [RRes.isOk])
  | some p7 =>
  obtain ⟨elv, head6⟩ := p7
  rw [h7] at h
  dsimp only at h
  have hselv := parse_f64_kv_some head5 _ _ _ h7
  cases h8 : parse_i32_kv head6 "STIM".data with
  | none => rw [h8] at h; exact absurd h (by simp [RRes.isOk])
  | some p8 =>
  obtain ⟨lt, head7⟩ := p8
  have hstim := parse_i32_kv_some head6 _ _ _ h8
  have hsuf2 : head2 <:+ src := hstnm.2.trans hidh
  have hsuf3 : head3 <:+ src := htime.2.trans hsuf2
  have hsuf4 : head4 <:+ src := hslat.2.trans hsuf3
  have hsuf5 : head5 <:+ src := hslon.2.trans hsuf4
  have hsuf6 : head6 <:+ src := hselv.2.trans hsuf5
  exact ⟨hstid.1,
    occ_trans_suffix hstnm.1 hidh,
    occ_trans_suffix htime.1 hsuf2,
    occ_trans_suffix hslat.1 hsuf3,
    occ_trans_suffix hslon.1 hsuf4,
    occ_trans_suffix hselv.1 hsuf5,
    occ_trans_suffix hstim.1 hsuf6⟩

/-- Closed instance of `stationInfoParse_requires_keys` on a complete
preamble. -/
theorem stationInfoParse_requires_keys_witness :
    ("STID".data <:+:
      "STID = KMSO STNM = 727730 TIME = 170404/1200 SLAT = 46.87 SLON = -114.16 SELV = 1335.0 STIM = 84".data) ∧
    ("STNM".data <:+:
      "STID = KMSO STNM = 727730 TIME = 170404/1200 SLAT = 46.87 SLON = -114.16 SELV = 1335.0 STIM = 84".data) ∧
    ("TIME".data <:+:
      "STID = KMSO STNM = 727730 TIME = 170404/1200 SLAT = 46.87 SLON = -114.16 SELV = 1335.0 STIM = 84".data) ∧
    ("SLAT".data <:+:
      "STID = KMSO STNM = 727730 TIME = 170404/1200 SLAT = 46.87 SLON = -114.16 SELV = 1335.0 STIM = 84".data) ∧
    ("SLON".data <:+:
      "STID = KMSO STNM = 727730 TIME = 170404/1200 SLAT = 46.87 SLON = -114.16 SELV = 1335.0 STIM = 84".data) ∧
    ("SELV".data <:+:
      "STID = KMSO STNM = 727730 TIME = 170404/1200 SLAT = 46.87 SLON = -114.16 SELV = 1335.0 STIM = 84".data) ∧
    ("STIM".data <:+:
      "STID = KMSO STNM = 727730 TIME = 170404/1200 SLAT = 46.87 SLON = -114.16 SELV = 1335.0 STIM = 84".data) :=
  stationInfoParse_requires_keys _ (by decide)

/-! ## Claim C1: the sounding merge iterator -/

theorem strictTimes_cons {τ α : Type} [LinearOrder τ] (a : τ × α)
    (l : List (τ × α)) :
    strictTimes (a :: l) = true ↔
      (∀ b ∈ l, a.1 < b.1) ∧ strictTimes l = true := by
  induction l generalizing a with
  | nil => simp [strictTimes]
  | cons b rest ih =>
    simp only [strictTimes, Bool.and_eq_true, decide_eq_true_eq]
    constructor
    · rintro ⟨hab, htail⟩
      obtain ⟨hball, hrest⟩ := (ih b).mp htail
      refine ⟨?_, (ih b).mpr ⟨hball, hrest⟩⟩
      intro c hc
      rcases List.mem_cons.mp hc with rfl | hc'
      · exact hab
      · exact lt_trans hab (hball c hc')
    · rintro ⟨hall, htail⟩
      exact ⟨hall b (List.mem_cons_self b rest), htail⟩

theorem matchedPairs_nil_right {τ α β : Type} [LinearOrder τ]
    (uas : List (τ × α)) :
    matchedPairs uas ([] : List (τ × β)) = [] := by
  simp [matchedPairs]

theorem matchedPairs_skip_sd {τ α β : Type} [LinearOrder τ]
    (uas : List (τ × α)) (sd : τ × β) (sds : List (τ × β))
    (h : ∀ ua ∈ uas, sd.1 ≠ ua.1) :
    matchedPairs uas (sd :: sds) = matchedPairs uas sds := by
  induction uas with
  | nil => rfl
  | cons u us ih =>
    unfold matchedPairs
    rw [List.filterMap_cons, List.filterMap_cons]
    have hfind : List.find? (fun x : τ × β => decide (x.1 = u.1)) (sd :: sds) =
        List.find? (fun x : τ × β => decide (x.1 = u.1)) sds := by
      rw [List.find?_cons_of_neg]
      simp only [decide_eq_true_eq]
      exact h u (List.mem_cons_self u us)
    rw [hfind]
    have htail := ih (fun ua hua => h ua (List.mem_cons_of_mem u hua))
    unfold matchedPairs at htail
    rw [htail]

theorem matchedPairs_skip_ua {τ α β : Type} [LinearOrder τ]
    (ua : τ × α) (uas : List (τ × α)) (sds : List (τ × β))
    (h : ∀ sd ∈ sds, sd.1 ≠ ua.1) :
    matchedPairs (ua :: uas) sds = matchedPairs uas sds := by
  unfold matchedPairs
  rw [List.filterMap_cons]
  have hnone : sds.find? (fun x => decide (x.1 = ua.1)) = none := by
    rw [List.find?_eq_none]
    intro x hx
    simp only [decide_eq_true_eq]
    exact h x hx
  rw [hnone]
  rfl

theorem mergeLoopFuel_spec {τ α β : Type} [LinearOrder τ] (fuel : Nat) :
    ∀ (ua : τ × α) (uas : List (τ × α)) (sd : τ × β) (sds : List (τ × β)),
      uas.length + sds.length + 1 ≤ fuel →
      strictTimes (ua :: uas) = true → strictTimes (sd :: sds) = true →
      mergeLoopFuel fuel ua uas sd sds =
        matchedPairs (ua :: uas) (sd :: sds) := by
  induction fuel with
  | zero =>
    intro ua uas sd sds hf _ _
    omega
  | succ fuel ih =>
    intro ua uas sd sds hf hu hs
    obtain ⟨hu1, hu2⟩ := (strictTimes_cons ua uas).mp hu
    obtain ⟨hs1, hs2⟩ := (strictTimes_cons sd sds).mp hs
    rcases lt_trichotomy sd.1 ua.1 with hlt | heq | hgt
    · simp only [mergeLoopFuel]
      rw [if_pos hlt]
      have hskip : matchedPairs (ua :: uas) (sd :: sds) =
          matchedPairs (ua :: uas) sds := by
        apply matchedPairs_skip_sd
        intro e he
        rcases List.mem_cons.mp he with rfl | he'
        · exact ne_of_lt hlt
        · exact ne_of_lt (lt_trans hlt (hu1 e he'))
      rw [hskip]
      cases sds with
      | nil => exact (matchedPairs_nil_right _).symm
      | cons sd' sds' =>
        exact ih ua uas sd' sds'
          (by simp only [List.length_cons] at hf; omega) hu hs2
    · simp only [mergeLoopFuel]
      have h1 : ¬ sd.1 < ua.1 := by rw [heq]; exact lt_irrefl _
      have h2 : ¬ ua.1 < sd.1 := by rw [heq]; exact lt_irrefl _
      rw [if_neg h1, if_neg h2, if_pos heq.symm]
      have hhead : (sd :: sds).find? (fun x : τ × β => decide (x.1 = ua.1)) =
          some sd :=
        List.find?_cons_of_pos _ (by simp [heq])
      have hexp : matchedPairs (ua :: uas) (sd :: sds) =
          (ua, sd) :: matchedPairs uas (sd :: sds) := by
        unfold matchedPairs
        rw [List.filterMap_cons, hhead]
        rfl
      have hskip : matchedPairs uas (sd :: sds) = matchedPairs uas sds := by
        apply matchedPairs_skip_sd
        intro e he
        rw [heq]
        exact ne_of_lt (hu1 e he)
      rw [hexp, hskip]
      cases uas with
      | nil =>
        cases sds with
        | nil => rfl
        | cons sd' sds' => rfl
      | cons ua' uas' =>
        cases sds with
        | nil =>
          simp only [matchedPairs_nil_right]
        | cons sd' sds' =>
          simp only [List.cons.injEq, true_and]
          exact ih ua' uas' sd' sds'
            (by simp only [List.length_cons] at hf; omega) hu2 hs2
    · simp only [mergeLoopFuel]
      rw [if_neg (lt_asymm hgt), if_pos hgt]
      have hskip : matchedPairs (ua :: uas) (sd :: sds) =
          matchedPairs uas (sd :: sds) := by
        apply matchedPairs_skip_ua
        intro e he
        rcases List.mem_cons.mp he with rfl | he'
        · exact ne_of_gt hgt
        · exact ne_of_gt (lt_trans hgt (hs1 e he'))
      rw [hskip]
      cases uas with
      | nil => rfl
      | cons ua' uas' =>
        exact ih ua' uas' sd sds
          (by simp only [List.length_cons] at hf; omega) hu2 hs


/-- **C1.** On strictly time-increasing upper-air and surface streams, the
sequence of records emitted by `SoundingIterator::next` — advancing whichever
cursor holds the strictly earlier valid time, emitting on exact time
equality, re-popping both cursors after each emission, and stopping as soon
as either sub-iterator is exhausted — is exactly the sequence of
(upper-air, surface) pairs with exactly equal valid times; unmatched records
on either side are silently dropped. -/
theorem merge_spec {τ α β : Type} [LinearOrder τ]
    (uas : List (τ × α)) (sds : List (τ × β))
    (hu : strictTimes uas = true) (hs : strictTimes sds = true) :
    soundingOutput uas sds = matchedPairs uas sds := by
  cases uas with
  | nil => rfl
  | cons ua uas' =>
    cases sds with
    | nil =>
      rw [show soundingOutput (ua :: uas') ([] : List (τ × β)) = [] from rfl]
      exact (matchedPairs_nil_right _).symm
    | cons sd sds' =>
      exact mergeLoopFuel_spec (uas'.length + sds'.length + 1) ua uas' sd sds'
        le_rfl hu hs

/-- Closed instance of `merge_spec`: times 2 and 4 match, times 1 and 3 are
dropped. -/
theorem merge_spec_witness :
    soundingOutput [((1 : Nat), (10 : Nat)), (2, 20), (4, 40)]
        [((2 : Nat), (5 : Nat)), (3, 6), (4, 7)] =
      matchedPairs [((1 : Nat), (10 : Nat)), (2, 20), (4, 40)]
        [((2 : Nat), (5 : Nat)), (3, 6), (4, 7)] :=
  merge_spec _ _ (by decide) (by decide)

end Bufkit
